import Mathlib

/-!
netutil / fqdn : hosts-file line parser and FQDN resolution.

A shallow embedding of `src/fqdn/fqdn.go` and of `chomp` of
`src/fqdn/util_win.go`.

Go strings are byte strings; they are embedded as lists of natural numbers
(`Str`), each element standing for one byte value.  Go's `int` index
variables are embedded as `Int` so that the transient value `-1` produced by
`i -= 1` is representable.  Every indexing and slicing operation is partial
(`Option`), so that a run-time panic of the Go program is visible in the model.
-/

namespace Fqdn


/-- Byte strings: the Go type `string`. -/
abbrev Str := List Nat

/-- Bytes of an ASCII string literal, used for concrete inputs. -/
def bytes (s : String) : Str := s.toList.map Char.toNat

/-- Outcome of running a Go function: it returns, panics, or the bounded
loop modelling its iteration ran out of steps. -/
inductive Exec (α : Type) where
  | ret (a : α)
  | panic
  | timeout
  deriving DecidableEq, Repr

/-! ## `isalnum`, `isValidHostname` -/

/-- Go: `isalnum(r rune) bool`. -/
def isalnum (r : Nat) : Bool :=
  (decide (r ≥ 97) && decide (r ≤ 122)) ||
  (decide (r ≥ 65) && decide (r ≤ 90)) ||
  (decide (r ≥ 48) && decide (r ≤ 57))

/-- Go: `const maxHostnameLen = 254`. -/
def maxHostnameLen : Nat := 254

/-- Go: `utf8.RuneError`, the replacement character U+FFFD. -/
def RuneError : Nat := 0xFFFD

/-- The part of `unicode/utf8.DecodeRuneInString` that decodes a sequence of
`sz` bytes (2, 3 or 4) whose first byte is `s0` and whose second byte must lie
in the accept range `lo..hi`; `rest` holds the bytes after `s0`. -/
def decodeMulti (s0 sz lo hi : Nat) (rest : Str) : Nat × Nat :=
  if rest.length + 1 < sz then (RuneError, 1)
  else
    match rest with
    | [] => (RuneError, 1)
    | s1 :: r1 =>
      if s1 < lo ∨ hi < s1 then (RuneError, 1)
      else if sz ≤ 2 then ((s0 % 32) * 64 + s1 % 64, 2)
      else
        match r1 with
        | [] => (RuneError, 1)
        | s2 :: r2 =>
          if s2 < 0x80 ∨ 0xBF < s2 then (RuneError, 1)
          else if sz ≤ 3 then ((s0 % 16) * 4096 + (s1 % 64) * 64 + s2 % 64, 3)
          else
            match r2 with
            | [] => (RuneError, 1)
            | s3 :: _ =>
              if s3 < 0x80 ∨ 0xBF < s3 then (RuneError, 1)
              else ((s0 % 8) * 262144 + (s1 % 64) * 4096 + (s2 % 64) * 64 + s3 % 64, 4)

/-- One step of Go's `for _, c := range s` over a non-empty string whose
first byte is `s0` and whose remaining bytes are `rest`: the decoded rune and
the number of bytes it occupies (`unicode/utf8.DecodeRuneInString`: the
`first` table and the `acceptRanges` of the second byte are written out as
ranges of the first byte). An invalid or truncated sequence decodes to
`RuneError` of width 1. -/
def decodeRune (s0 : Nat) (rest : Str) : Nat × Nat :=
  if s0 < 0x80 then (s0, 1)
  else if s0 < 0xC2 ∨ 0xF4 < s0 then (RuneError, 1)
  else
    decodeMulti s0
      (if s0 < 0xE0 then 2 else if s0 < 0xF0 then 3 else 4)
      (if s0 = 0xE0 then 0xA0 else if s0 = 0xF0 then 0x90 else 0x80)
      (if s0 = 0xED then 0x9F else if s0 = 0xF4 then 0x8F else 0xBF)
      rest

/-- The condition tested on every rune by `isValidHostname`:
`c >= 0x80 || c == '.' || c == '-' || isalnum(c)`. -/
def okRune (c : Nat) : Bool :=
  decide (c ≥ 0x80) || decide (c = 46) || decide (c = 45) || isalnum c

/-- The loop `for _, c := range s { if !(…) { return false } }; return true`
of `isValidHostname`. The first argument counts the bytes still to be
skipped because they belong to the rune decoded last. -/
def validRunes : Nat → Str → Bool
  | _, [] => true
  | k + 1, _ :: rest => validRunes k rest
  | 0, s0 :: rest =>
    let rw := decodeRune s0 rest
    if !(okRune rw.1) then false else validRunes (rw.2 - 1) rest

/-- Go: `isValidHostname(s string) bool`. -/
def isValidHostname (s : Str) : Bool :=
  if s.length > maxHostnameLen then false else validRunes 0 s

/-! ## `parseHostLine` -/

/-- Go: `StateSkipWhite = iota`, the first state constant of
`parseHostLine`; the variable `state` is an `int`. -/
def StateSkipWhite : Nat := 0

/-- Go: `StateIp`. -/
def StateIp : Nat := 1

/-- Go: `StateCanonFirst`. -/
def StateCanonFirst : Nat := 2

/-- Go: `StateCanon`. -/
def StateCanon : Nat := 3

/-- Go: `StateAliasFirst`. -/
def StateAliasFirst : Nat := 4

/-- Go: `StateAlias`. -/
def StateAlias : Nat := 5

/-- The local variables of `parseHostLine`. -/
structure Vars where
  canon : Str
  state : Nat
  nextState : Nat
  i : Int
  start : Int
  deriving DecidableEq, Repr

/-- Go: `line[i]`; `none` is the index-out-of-range panic. -/
def index (line : Str) (i : Int) : Option Nat :=
  if 0 ≤ i ∧ i < line.length then line.get? i.toNat else none

/-- Go: `line[lo:hi]`; `none` is the slice-bounds panic. -/
def slice (line : Str) (lo hi : Int) : Option Str :=
  if 0 ≤ lo ∧ lo ≤ hi ∧ hi ≤ line.length then
    some ((line.drop lo.toNat).take (hi.toNat - lo.toNat))
  else none

/-- Go: the closure `isWhite`. -/
def isWhite (b : Nat) : Bool := decide (b = 32) || decide (b = 9)

/-- Go: the closure `isLast`, `i == len(line)-1 || isWhite(line[i+1])`. -/
def isLast (line : Str) (i : Int) : Option Bool :=
  if i = (line.length : Int) - 1 then some true
  else (index line (i + 1)).map isWhite

/-- Go: the closure `partStr`, `line[start : i+1]`. -/
def partStr (line : Str) (v : Vars) : Option Str :=
  slice line v.start (v.i + 1)

/-- Effect of one execution of the body of the `for` loop. -/
inductive Step where
  | next (v : Vars)
  | brk
  | ret (name : Str) (ok : Bool)
  | panic
  deriving DecidableEq, Repr

/-- The body of the `for` loop of `parseHostLine` (the post statement
`i += 1` is applied by `loop`). The calls of `partStr` made for the debug
log are kept, since they can panic. -/
def body (host line : Str) (v : Vars) : Step :=
  match index line v.i with
  | none => .panic
  | some b =>
    if b = 35 then .brk
    else if v.state = StateSkipWhite then
      if !(isWhite b) then .next { v with state := v.nextState, i := v.i - 1 }
      else .next v
    else if v.state = StateIp then
      match isLast line v.i with
      | none => .panic
      | some true => .next { v with state := StateSkipWhite, nextState := StateCanonFirst }
      | some false => .next v
    else if v.state = StateCanonFirst then
      .next { v with start := v.i, state := StateCanon, i := v.i - 1 }
    else if v.state = StateCanon then
      match partStr line v with
      | none => .panic
      | some _ =>
        match isLast line v.i with
        | none => .panic
        | some false => .next v
        | some true =>
          match partStr line v with
          | none => .panic
          | some canon =>
            if !(isValidHostname canon) then .ret [] false
            else if canon = host then .ret canon true
            else .next { v with canon := canon, state := StateSkipWhite,
                                nextState := StateAliasFirst }
    else if v.state = StateAliasFirst then
      .next { v with start := v.i, state := StateAlias, i := v.i - 1 }
    else if v.state = StateAlias then
      match partStr line v with
      | none => .panic
      | some _ =>
        match isLast line v.i with
        | none => .panic
        | some false => .next v
        | some true =>
          match partStr line v with
          | none => .panic
          | some als =>
            if als = host then .ret v.canon true
            else .next { v with state := StateSkipWhite, nextState := StateAliasFirst }
    else .panic

/-- The `for i = 0; i < len(line); i += 1 { … }` loop followed by the final
`return "", false`, run for at most the given number of condition tests. -/
def loop (host line : Str) : Nat → Vars → Exec (Str × Bool)
  | 0, _ => .timeout
  | fuel + 1, v =>
    if v.i < line.length then
      match body host line v with
      | .panic => .panic
      | .ret name ok => .ret (name, ok)
      | .brk => .ret ([], false)
      | .next w => loop host line fuel { w with i := w.i + 1 }
    else .ret ([], false)

/-- The variables at loop entry: `state = StateSkipWhite`,
`nextState = StateIp`, `i = 0`, the rest zero-valued. -/
def initVars : Vars :=
  { canon := [], state := StateSkipWhite, nextState := StateIp, i := 0, start := 0 }

/-- Go: `parseHostLine(host string, line string) (string, bool)`. The loop
is given `3 * len(line) + 1` condition tests. -/
def parseHostLine (host line : Str) : Exec (Str × Bool) :=
  loop host line (3 * line.length + 1) initVars

/-! ## A forward-only scanner equivalent to the loop of `parseHostLine`

`scan` consumes the rest of the line byte by byte and never steps back. It is
an auxiliary specification device: the loop of `parseHostLine` is proved equal
to it (`loop_eq_scan`), and the properties of `parseHostLine` are derived from
it. -/

/-- Which field of the line the scanner is looking for or reading. -/
inductive Phase where
  | addr
  | canon
  | aliases
  deriving DecidableEq, Repr

/-- The lookahead of `isLast`, on the bytes that follow the current one. -/
def isLastL : Str → Bool
  | [] => true
  | c :: _ => isWhite c

/-- The forward-only scanner. The first argument is `none` while whitespace is
skipped and `some acc` inside a field, `acc` being the bytes of the field read
so far; then come the phase, the canonical name found so far and the bytes
still to be read. -/
def scan (host : Str) : Option Str → Phase → Str → Str → Str × Bool
  | _, _, _, [] => ([], false)
  | cur, ph, canon, b :: rest =>
    if b = 35 then ([], false)
    else if cur = none ∧ isWhite b = true then scan host none ph canon rest
    else
      if isLastL rest then
        match ph with
        | .addr => scan host none .canon canon rest
        | .canon =>
          if !(isValidHostname (cur.getD [] ++ [b])) then ([], false)
          else if cur.getD [] ++ [b] = host then (cur.getD [] ++ [b], true)
          else scan host none .aliases (cur.getD [] ++ [b]) rest
        | .aliases =>
          if cur.getD [] ++ [b] = host then (canon, true)
          else scan host none .aliases canon rest
      else scan host (some (cur.getD [] ++ [b])) ph canon rest

/-- The state that `StateSkipWhite` hands over to, for each phase. -/
def firstState : Phase → Nat
  | .addr => StateIp
  | .canon => StateCanonFirst
  | .aliases => StateAliasFirst

/-- The state in which the bytes of a field are read, for each phase. -/
def fieldState : Phase → Nat
  | .addr => StateIp
  | .canon => StateCanon
  | .aliases => StateAlias

/-- How many of the three visits of the current byte are already spent when
the loop is in the given state. -/
def spent (st : Nat) : Nat :=
  if st = StateSkipWhite then 0
  else if st = StateCanonFirst ∨ st = StateAliasFirst then 1 else 2

/-- The loop variables `v`, with `suf` the bytes from index `i` on, stand for
the scanner state `cur`, `ph`, `canon`. -/
def Rel (line : Str) (v : Vars) (suf : Str) (cur : Option Str) (ph : Phase)
    (canon : Str) : Prop :=
  v.canon = canon ∧ ∃ pre : Str, line = pre ++ suf ∧ v.i = pre.length ∧
    ((v.state = StateSkipWhite ∧ v.nextState = firstState ph ∧ cur = none) ∨
     (ph ≠ Phase.addr ∧ v.state = firstState ph ∧ cur = some []) ∨
     (v.state = fieldState ph ∧ ∃ acc pre0 : Str, cur = some acc ∧
        (ph ≠ Phase.addr → pre = pre0 ++ acc ∧ v.start = pre0.length)))

/-! ## Fields of a line -/

/-- The fields of a line: the maximal runs of bytes other than space and
tab. -/
def fields (line : Str) : List Str :=
  (line.splitOnP isWhite).filter (fun f => !f.isEmpty)

/-- The fields of `acc ++ suf` when `acc` holds the bytes already read of
the field in progress (`acc` is empty when no field is in progress). -/
def fieldsFrom (acc suf : Str) : List Str :=
  ((suf.splitOnP isWhite).modifyHead (fun f => acc ++ f)).filter (fun f => !f.isEmpty)

/-- The completed fields of a line: the fields found before the first `#`,
a field that runs into the `#` being left out. The first argument holds the
bytes already read of the field in progress. -/
def tokensFrom : Str → Str → List Str
  | acc, [] => if acc = [] then [] else [acc]
  | acc, b :: rest =>
    if b = 35 then []
    else if isWhite b then
      (if acc = [] then tokensFrom [] rest else acc :: tokensFrom [] rest)
    else tokensFrom (acc ++ [b]) rest

/-- The completed fields of a whole line. -/
def tokens (line : Str) : List Str := tokensFrom [] line

/-- The result for a list of fields: the second field is the canonical name,
it must be valid and the host must be it or one of the fields after it. -/
def verdict (host : Str) : List Str → Str × Bool
  | _ :: c :: rest =>
    if isValidHostname c = true ∧ host ∈ c :: rest then (c, true) else ([], false)
  | _ => ([], false)

/-- The reference of `parseHostLine` for a line without `#`: split the line
into its fields and judge them. -/
def parseHostLineRef (host line : Str) : Str × Bool :=
  verdict host (fields line)

/-- What the scanner returns in a given phase when the completed fields still
ahead are `ts`. -/
def finish (host : Str) : Phase → Str → List Str → Str × Bool
  | .addr, _, ts => verdict host ts
  | .canon, _, ts => verdict host ([] :: ts)
  | .aliases, canon, ts => if host ∈ ts then (canon, true) else ([], false)

/-- The byte-level condition of the hostname check: an ASCII letter, an ASCII
digit, `.`, `-`, or a byte with the high bit set. -/
def okByte (b : Nat) : Prop :=
  (65 ≤ b ∧ b ≤ 90) ∨ (97 ≤ b ∧ b ≤ 122) ∨ (48 ≤ b ∧ b ≤ 57) ∨ b = 46 ∨ b = 45 ∨ 128 ≤ b

instance : DecidablePred okByte := fun b => by unfold okByte; infer_instance

/-- Whether a byte string starts with a space or a tab. -/
def startsWhite : Str → Bool
  | [] => false
  | c :: _ => isWhite c

/-- Replace every maximal run of spaces and tabs by the single byte `w`: a
space or tab followed by another one is dropped, the last one of a run
becomes `w`. -/
def collapse (w : Nat) : Str → Str
  | [] => []
  | b :: rest =>
    if isWhite b then
      (if startsWhite rest then collapse w rest else w :: collapse w rest)
    else b :: collapse w rest

/-! ## `fromHosts`, `fromLookup`, `FqdnHostname`

The operating system and the resolver are inputs of the model: the result of
`os.Hostname`, the result of opening and reading the hosts file, and the three
lookup primitives of package `net`. -/

/-- Modelled from the spec: the error values of the package. The declarations
of `errHostnameFailed` and `errFqdnNotFound` are not among the sources; the
functions of `fqdn.go` build them as `errHostnameFailed{err}`,
`errFqdnNotFound{err}` and `errFqdnNotFound{}`, and the spec describes them as
the "hostname lookup failed" kind wrapping the OS error and the "FQDN not
found" kind with an optional cause. -/
inductive Err where
  /-- An error reported by the operating system or the resolver. -/
  | sys (code : Nat)
  /-- Go: `io.EOF`. -/
  | eof
  /-- Go: `fmt.Errorf("cannot open hosts file: %w", err)`. -/
  | cannotOpen (cause : Err)
  /-- Go: `fmt.Errorf("failed to read file: %w", err)`. -/
  | readFailed (cause : Err)
  /-- Go: `errHostnameFailed{err}`. -/
  | hostnameFailed (cause : Err)
  /-- Go: `errFqdnNotFound{err}`. -/
  | fqdnNotFoundBy (cause : Err)
  /-- Go: `errFqdnNotFound{}`. -/
  | fqdnNotFound
  deriving DecidableEq, Repr

/-- The hosts file once opened, as `fromHosts` sees it through `readline`:
the lines delivered with a nil error, in file order, and the error that ends
the reading (`io.EOF` at the end of the file). The results of `readline` are
an input of the model. -/
structure HostsFile where
  lines : List Str
  final : Err
  deriving DecidableEq, Repr

/-- The loop `for line, err = readline(r); err == nil; line, err = readline(r)`
of `fromHosts` and the statements after it; the last argument is the current
value of the variable `fqdn`. -/
def hostsLoop (host : Str) : List Str → Err → Str → Exec (Str × Option Err)
  | [], final, fqdn =>
    if final ≠ Err.eof then .ret (fqdn, some (Err.readFailed final))
    else .ret (fqdn, some Err.fqdnNotFound)
  | line :: rest, final, _ =>
    match parseHostLine host line with
    | .ret (name, ok) => if ok then .ret (name, none) else hostsLoop host rest final name
    | .panic => .panic
    | .timeout => .timeout

/-- Go: `fromHosts(host string) (string, error)`; the argument `file` is the
result of `os.Open(hostsPath)`. -/
def fromHosts (host : Str) (file : Except Err HostsFile) : Exec (Str × Option Err) :=
  match file with
  | .error e => .ret ([], some (Err.cannotOpen e))
  | .ok f => hostsLoop host f.lines f.final []

/-- The lookup primitives of package `net` used by `fromLookup`; an address
is given by its bytes, and `lookupAddr addr` stands for
`net.LookupAddr(addr.String())`. -/
structure Dns where
  lookupCNAME : Str → Str × Option Err
  lookupIP : Str → List Str × Option Err
  lookupAddr : Str → List Str × Option Err

/-- The loop `for _, addr := range addrs` of `fromLookup` followed by
`err = errFqdnNotFound{}`; the last argument is the current value of `fqdn`. -/
def reverseLoop (dns : Dns) : List Str → Str → Str × Option Err
  | [], fqdn => (fqdn, some Err.fqdnNotFound)
  | addr :: rest, fqdn =>
    match dns.lookupAddr addr with
    | (_, some _) => reverseLoop dns rest fqdn
    | ([], none) => reverseLoop dns rest fqdn
    | (h :: _, none) => (h, none)

/-- The statements at the label `out` of `fromLookup`: a trailing `.` is
stripped from the name. -/
def stripDot (fqdn : Str) : Str :=
  if 0 < fqdn.length ∧ fqdn.get? (fqdn.length - 1) = some 46 then
    fqdn.take (fqdn.length - 1)
  else fqdn

/-- Go: `fromLookup(host string) (string, error)`. -/
def fromLookup (dns : Dns) (host : Str) : Str × Option Err :=
  let r : Str × Option Err :=
    match dns.lookupCNAME host with
    | (fqdn, none) =>
      if fqdn.length ≠ 0 then (fqdn, none)
      else
        match dns.lookupIP host with
        | (_, some e) => (fqdn, some (Err.fqdnNotFoundBy e))
        | (addrs, none) => reverseLoop dns addrs fqdn
    | (fqdn, some _) =>
      match dns.lookupIP host with
      | (_, some e) => (fqdn, some (Err.fqdnNotFoundBy e))
      | (addrs, none) => reverseLoop dns addrs fqdn
  (stripDot r.1, r.2)

/-- Go: `FqdnHostname() (string, error)`; `hostname` is the result of
`os.Hostname()` and `file` the result of `os.Open(hostsPath)`. -/
def FqdnHostname (hostname : Str × Option Err) (file : Except Err HostsFile) (dns : Dns) :
    Exec (Str × Option Err) :=
  match hostname with
  | (_, some e) => .ret ([], some (Err.hostnameFailed e))
  | (host, none) =>
    match fromHosts host file with
    | .ret (fqdn, none) => .ret (fqdn, none)
    | .ret (_, some _) => .ret (fromLookup dns host)
    | .panic => .panic
    | .timeout => .timeout

/-- The name that `parseHostLine` matches on a line, if it reports a
match. -/
def matched (host line : Str) : Option Str :=
  match parseHostLine host line with
  | .ret (c, true) => some c
  | _ => none

/-- A resolver that answers every canonical-name lookup with
`dns.example.org.` and has no addresses. -/
def dnsExample : Dns :=
  { lookupCNAME := fun _ => (bytes "dns.example.org.", none)
    lookupIP := fun _ => ([], none)
    lookupAddr := fun _ => ([], none) }

/-- A resolver for which every lookup fails. -/
def dnsDown : Dns :=
  { lookupCNAME := fun _ => ([], some (Err.sys 1))
    lookupIP := fun _ => ([], some (Err.sys 1))
    lookupAddr := fun _ => ([], some (Err.sys 1)) }

/-- The statements of `fromLookup` before the label `out`: the name and the
error that the lookups leave in the variables `fqdn` and `err`. -/
def lookupSteps (dns : Dns) (host : Str) : Str × Option Err :=
  match dns.lookupCNAME host with
  | (fqdn, none) =>
    if fqdn.length ≠ 0 then (fqdn, none)
    else
      match dns.lookupIP host with
      | (_, some e) => (fqdn, some (Err.fqdnNotFoundBy e))
      | (addrs, none) => reverseLoop dns addrs fqdn
  | (fqdn, some _) =>
    match dns.lookupIP host with
    | (_, some e) => (fqdn, some (Err.fqdnNotFoundBy e))
    | (addrs, none) => reverseLoop dns addrs fqdn

/-- A name less one trailing `.`: the name without its last byte when it ends
with `.`, the name itself otherwise. -/
def lessDot (n : Str) : Str :=
  if n.getLast? = some 46 then n.dropLast else n

/-- An address for which the reverse lookup fails or returns no name. -/
def noReverse (dns : Dns) (addr : Str) : Prop :=
  (dns.lookupAddr addr).2 ≠ none ∨ (dns.lookupAddr addr).1 = []

instance (dns : Dns) : DecidablePred (noReverse dns) :=
  fun a => by unfold noReverse; infer_instance

/-- A resolver without canonical-name answer whose forward lookup of any host
gives three addresses: the reverse lookup fails for `10.0.0.1`, returns no
name for `10.0.0.2` and returns `host.example.com.` and `host.` for
`10.0.0.3`. -/
def dnsReverse : Dns :=
  { lookupCNAME := fun _ => ([], some (Err.sys 3))
    lookupIP := fun _ => ([bytes "10.0.0.1", bytes "10.0.0.2", bytes "10.0.0.3"], none)
    lookupAddr := fun a =>
      if a = bytes "10.0.0.1" then ([], some (Err.sys 4))
      else if a = bytes "10.0.0.3" then ([bytes "host.example.com.", bytes "host."], none)
      else ([], none) }

/-- A resolver that answers every canonical-name lookup with
`bad_name.example.com.`. -/
def dnsUnderscore : Dns :=
  { lookupCNAME := fun _ => (bytes "bad_name.example.com.", none)
    lookupIP := fun _ => ([], none)
    lookupAddr := fun _ => ([], none) }

/-- A byte string cut after its last space or tab: the bytes are kept as long
as a space or tab is still to come. The result is empty when there is no
space or tab, and the whole string when it ends in one. -/
def cutAfterWhite : Str → Str
  | [] => []
  | b :: rest => if (b :: rest).any isWhite then b :: cutAfterWhite rest else []

/-! ## `chomp` and the line reader -/

/-- Go: `chomp(s string) string` of `util_win.go`. -/
def chomp (s : Str) : Str :=
  let s1 : Str :=
    if 0 < s.length ∧ s.get? (s.length - 1) = some 10 then s.take (s.length - 1) else s
  if 0 < s1.length ∧ s1.get? (s1.length - 1) = some 13 then s1.take (s1.length - 1) else s1

/-- The bytes of the input up to and including the first `\n`, or the whole
input when it holds no `\n`. -/
def rawLine : Str → Str
  | [] => []
  | b :: rest => if b = 10 then [b] else b :: rawLine rest

/-- Modelled from the spec: the line reader `readline`, whose source is not
among the files (its tests and `chomp` are). One call on the input that
remains: at the end of the input it reports `io.EOF`; otherwise a line ends at
`\n`, or at the end of the input when the last fragment has no `\n`, and the
line is returned chomped with a nil error. The second component is the input
that remains after the call. -/
def readline (input : Str) : (Str × Option Err) × Str :=
  match input with
  | [] => (([], some Err.eof), [])
  | b :: rest =>
    ((chomp (rawLine (b :: rest)), none), (b :: rest).drop (rawLine (b :: rest)).length)

/-- The loop `for l, e = readline(r); e == nil; l, e = readline(r)` of the
tests and of `fromHosts`: the lines delivered with a nil error and the error
that ends them, for at most the given number of calls of `readline`. -/
def readLines : Nat → Str → Option HostsFile
  | 0, _ => none
  | fuel + 1, input =>
    match readline input with
    | ((_, some e), _) => some ⟨[], e⟩
    | ((l, none), rest) => (readLines fuel rest).map (fun f => ⟨l :: f.lines, f.final⟩)

/-- The lines and the final error that reading a whole input delivers; one
call of `readline` per byte and one more are allowed. -/
def readFile (input : Str) : Option HostsFile :=
  readLines (input.length + 1) input

/-- A line followed by its terminator, `\r\n` or `\n`. -/
def terminated (l : Str) (crlf : Bool) : Str :=
  l ++ (if crlf then [13, 10] else [10])

/-- The input made of the given lines, each followed by its terminator. -/
def joinLines : List (Str × Bool) → Str
  | [] => []
  | (l, crlf) :: rest => terminated l crlf ++ joinLines rest

/-! ## The loop of `parseHostLine`, with its iterations recorded -/

/-- The loop of `parseHostLine` as in `loop`, returning in addition the
values of the variables at the start of every execution of the loop body, in
order. -/
def run (host line : Str) : Nat → Vars → Exec (Str × Bool) × List Vars
  | 0, _ => (.timeout, [])
  | fuel + 1, v =>
    if v.i < line.length then
      match body host line v with
      | .panic => (.panic, [v])
      | .ret name ok => (.ret (name, ok), [v])
      | .brk => (.ret ([], false), [v])
      | .next w =>
        ((run host line fuel { w with i := w.i + 1 }).1,
          v :: (run host line fuel { w with i := w.i + 1 }).2)
    else (.ret ([], false), [])

/-- The invariant of the loop of `parseHostLine` at the loop condition: the
index is not negative, the state is one of the six declared states, the state
after `StateSkipWhite` is the start of a field, and inside the canonical name
or an alias `start` lies between 0 and the index. -/
def Inv (v : Vars) : Prop :=
  0 ≤ v.i ∧ v.state ≤ 5 ∧
  (v.state = StateSkipWhite →
    v.nextState = StateIp ∨ v.nextState = StateCanonFirst ∨ v.nextState = StateAliasFirst) ∧
  (v.state = StateCanon ∨ v.state = StateAlias → 0 ≤ v.start ∧ v.start ≤ v.i)

/-! ## Proofs: the loop of `parseHostLine` and the forward-only scanner -/

theorem index_at (pre : Str) (b : Nat) (rest : Str) (i : Int) (h : i = pre.length) :
    index (pre ++ b :: rest) i = some b := by
  subst h
  have hb : (0 : Int) ≤ pre.length ∧ (pre.length : Int) < ((pre ++ b :: rest).length : Int) := by
    simp only [List.length_append, List.length_cons]; push_cast; omega
  rw [index, if_pos hb, Int.toNat_ofNat, List.get?_eq_getElem?,
    List.getElem?_append_right (Nat.le_refl _)]
  simp

theorem isLast_at (pre : Str) (b : Nat) (rest : Str) (i : Int) (h : i = pre.length) :
    isLast (pre ++ b :: rest) i = some (isLastL rest) := by
  subst h
  cases rest with
  | nil => simp [isLast, isLastL]
  | cons c rest' =>
    have h1 : ¬ ((pre.length : Int) = ((pre ++ b :: c :: rest').length : Int) - 1) := by
      simp only [List.length_append, List.length_cons]; push_cast; omega
    have h2 : ((pre.length : Int) + 1) = ((pre ++ [b]).length : Int) := by simp
    have h3 : pre ++ b :: c :: rest' = (pre ++ [b]) ++ c :: rest' := by simp
    rw [isLast, if_neg h1, h3, index_at (pre ++ [b]) c rest' _ h2]
    simp [isLastL]

theorem slice_at (pre0 acc : Str) (b : Nat) (rest : Str) (s i : Int)
    (hs : s = pre0.length) (hi : i = pre0.length + acc.length) :
    slice (pre0 ++ acc ++ b :: rest) s (i + 1) = some (acc ++ [b]) := by
  subst hs hi
  have hb : (0 : Int) ≤ pre0.length ∧ (pre0.length : Int) ≤ pre0.length + acc.length + 1 ∧
      ((pre0.length : Int) + acc.length + 1) ≤ ((pre0 ++ acc ++ b :: rest).length : Int) := by
    simp only [List.length_append, List.length_cons]; push_cast; omega
  have e1 : ((pre0.length : Int) + acc.length + 1).toNat - (pre0.length : Int).toNat
      = (acc ++ [b]).length := by
    simp only [List.length_append, List.length_cons, List.length_nil]; omega
  rw [slice, if_pos hb, e1]
  simp only [Int.toNat_ofNat, List.append_assoc, List.drop_left]
  have : acc ++ b :: rest = (acc ++ [b]) ++ rest := by simp
  rw [this, List.take_left]

theorem scan_none_eq (host : Str) (ph : Phase) (canon : Str) (b : Nat) (rest : Str)
    (hw : ¬ isWhite b = true) :
    scan host none ph canon (b :: rest) = scan host (some []) ph canon (b :: rest) := by
  simp [scan, hw]

theorem loop_eq_scan (host line : Str) :
    ∀ (fuel : Nat) (v : Vars) (suf : Str) (cur : Option Str) (ph : Phase) (canon : Str),
      Rel line v suf cur ph canon → 3 * suf.length + 1 ≤ fuel + spent v.state → 1 ≤ fuel →
      loop host line fuel v = Exec.ret (scan host cur ph canon suf) := by
  intro fuel
  induction fuel with
  | zero => intro v suf cur ph canon _ _ h; omega
  | succ f ih =>
    intro v suf cur ph canon hrel hf _
    obtain ⟨hc, pre, hl, hi, hst⟩ := hrel
    cases suf with
    | nil =>
      have hlt : ¬ v.i < (line.length : Int) := by rw [hl, hi]; simp
      simp [loop, hlt, scan]
    | cons b rest =>
      have hlt : v.i < (line.length : Int) := by
        rw [hl, hi]; simp only [List.length_append, List.length_cons]; push_cast; omega
      have hidx : index line v.i = some b := by rw [hl]; exact index_at pre b rest _ hi
      have hlast : isLast line v.i = some (isLastL rest) := by
        rw [hl]; exact isLast_at pre b rest _ hi
      have hl2 : line = (pre ++ [b]) ++ rest := by rw [hl]; simp
      simp only [List.length_cons] at hf
      by_cases hb : b = 35
      · simp [loop, body, hidx, hb, scan, hlt]
      · rcases hst with ⟨hs, hn, hcur⟩ | ⟨hph, hs, hcur⟩ | ⟨hs, acc, pre0, hcur, hpre⟩
        · -- StateSkipWhite
          subst hcur
          have hsp : spent v.state = 0 := by rw [hs]; rfl
          by_cases hw : isWhite b = true
          · have hbody : body host line v = Step.next v := by
              simp [body, hidx, hb, hs, hw]
            rw [loop, if_pos hlt, hbody]
            simp only
            refine Eq.trans (ih _ rest none ph canon ?_ ?_ ?_) ?_
            · exact ⟨hc, pre ++ [b], hl2, by simp [hi], Or.inl ⟨hs, hn, rfl⟩⟩
            · simp only [hsp]; omega
            · omega
            · simp [scan, hb, hw]
          · have hbody : body host line v =
                Step.next { v with state := v.nextState, i := v.i - 1 } := by
              simp [body, hidx, hb, hs, hw]
            rw [loop, if_pos hlt, hbody]
            simp only
            rw [scan_none_eq host ph canon b rest hw]
            refine ih _ (b :: rest) (some []) ph canon ?_ ?_ ?_
            · refine ⟨hc, pre, hl, by simp [hi], ?_⟩
              cases ph with
              | addr => exact Or.inr (Or.inr ⟨hn, [], pre, rfl, fun h => absurd rfl h⟩)
              | canon => exact Or.inr (Or.inl ⟨by simp, hn, rfl⟩)
              | aliases => exact Or.inr (Or.inl ⟨by simp, hn, rfl⟩)
            · simp only [hn, List.length_cons]
              cases ph <;> simp [firstState, spent, StateIp, StateSkipWhite, StateCanonFirst,
                StateAliasFirst] <;> omega
            · omega
        · -- StateCanonFirst, StateAliasFirst
          subst hcur
          have hbody : body host line v =
              Step.next { v with start := v.i, state := fieldState ph, i := v.i - 1 } := by
            cases ph with
            | addr => exact absurd rfl hph
            | canon =>
              simp [body, hidx, hb, hs, firstState, fieldState, StateSkipWhite, StateIp,
                StateCanonFirst, StateCanon]
            | aliases =>
              simp [body, hidx, hb, hs, firstState, fieldState, StateSkipWhite, StateIp,
                StateCanonFirst, StateCanon, StateAliasFirst, StateAlias]
          rw [loop, if_pos hlt, hbody]
          simp only
          refine ih _ (b :: rest) (some []) ph canon ?_ ?_ ?_
          · exact ⟨hc, pre, hl, by simp [hi],
              Or.inr (Or.inr ⟨rfl, [], pre, rfl, fun _ => ⟨by simp, hi⟩⟩)⟩
          · simp only [hs, List.length_cons] at hf ⊢
            cases ph with
            | addr => exact absurd rfl hph
            | canon =>
              simp [firstState, fieldState, spent, StateIp, StateSkipWhite, StateCanonFirst,
                StateAliasFirst, StateCanon] at hf ⊢
              omega
            | aliases =>
              simp [firstState, fieldState, spent, StateIp, StateSkipWhite, StateCanonFirst,
                StateAliasFirst, StateAlias] at hf ⊢
              omega
          · simp only [hs] at hf
            cases ph with
            | addr => exact absurd rfl hph
            | canon =>
              simp [firstState, spent, StateSkipWhite, StateCanonFirst, StateAliasFirst] at hf
              omega
            | aliases =>
              simp [firstState, spent, StateSkipWhite, StateCanonFirst, StateAliasFirst] at hf
              omega
        · -- StateIp, StateCanon, StateAlias
          subst hcur
          have hsp : spent v.state = 2 := by
            rw [hs]; cases ph <;> rfl
          rw [hsp] at hf
          cases ph with
          | addr =>
            cases hL : isLastL rest with
            | true =>
              have hbody : body host line v = Step.next
                  { v with state := StateSkipWhite, nextState := StateCanonFirst } := by
                simp [body, hidx, hb, hs, hlast, hL, fieldState, StateSkipWhite, StateIp]
              rw [loop, if_pos hlt, hbody]
              simp only
              refine Eq.trans (ih _ rest none Phase.canon canon ?_ ?_ ?_) ?_
              · exact ⟨hc, pre ++ [b], hl2, by simp [hi], Or.inl ⟨rfl, rfl, rfl⟩⟩
              · simp [spent, StateSkipWhite]; omega
              · omega
              · simp [scan, hb, hL]
            | false =>
              have hbody : body host line v = Step.next v := by
                simp [body, hidx, hb, hs, hlast, hL, fieldState, StateSkipWhite, StateIp]
              rw [loop, if_pos hlt, hbody]
              simp only
              refine Eq.trans (ih _ rest (some (acc ++ [b])) Phase.addr canon ?_ ?_ ?_) ?_
              · exact ⟨hc, pre ++ [b], hl2, by simp [hi],
                  Or.inr (Or.inr ⟨hs, acc ++ [b], [], rfl, fun h => absurd rfl h⟩)⟩
              · omega
              · omega
              · simp [scan, hb, hL]
          | canon =>
            obtain ⟨hp, hstart⟩ := hpre (by simp)
            have hpart : partStr line v = some (acc ++ [b]) := by
              rw [partStr, hl, hp]
              exact slice_at pre0 acc b rest _ _ hstart (by rw [hi, hp]; simp)
            cases hL : isLastL rest with
            | false =>
              have hbody : body host line v = Step.next v := by
                simp [body, hidx, hb, hs, hlast, hL, hpart, fieldState, StateSkipWhite, StateIp,
                  StateCanonFirst, StateCanon, StateAliasFirst, StateAlias]
              rw [loop, if_pos hlt, hbody]
              simp only
              refine Eq.trans (ih _ rest (some (acc ++ [b])) Phase.canon canon ?_ ?_ ?_) ?_
              · exact ⟨hc, pre ++ [b], hl2, by simp [hi],
                  Or.inr (Or.inr ⟨hs, acc ++ [b], pre0, rfl,
                    fun _ => ⟨by rw [hp]; simp, hstart⟩⟩)⟩
              · omega
              · omega
              · simp [scan, hb, hL]
            | true =>
              by_cases hv : isValidHostname (acc ++ [b]) = true
              · by_cases hm : acc ++ [b] = host
                · subst hm
                  simp [loop, hlt, body, hidx, hb, hs, hlast, hL, hpart, fieldState,
                    StateSkipWhite, StateIp, StateCanonFirst, StateCanon, scan, hv]
                · have hbody : body host line v = Step.next
                      { v with canon := acc ++ [b], state := StateSkipWhite,
                               nextState := StateAliasFirst } := by
                    simp [body, hidx, hb, hs, hlast, hL, hpart, fieldState, StateSkipWhite,
                      StateIp, StateCanonFirst, StateCanon, hv, hm]
                  rw [loop, if_pos hlt, hbody]
                  simp only
                  refine Eq.trans (ih _ rest none Phase.aliases (acc ++ [b]) ?_ ?_ ?_) ?_
                  · exact ⟨rfl, pre ++ [b], hl2, by simp [hi], Or.inl ⟨rfl, rfl, rfl⟩⟩
                  · simp [spent, StateSkipWhite]; omega
                  · omega
                  · simp [scan, hb, hL, hv, hm]
              · simp [loop, hlt, body, hidx, hb, hs, hlast, hL, hpart, fieldState,
                  StateSkipWhite, StateIp, StateCanonFirst, StateCanon, scan, hv]
          | aliases =>
            obtain ⟨hp, hstart⟩ := hpre (by simp)
            have hpart : partStr line v = some (acc ++ [b]) := by
              rw [partStr, hl, hp]
              exact slice_at pre0 acc b rest _ _ hstart (by rw [hi, hp]; simp)
            cases hL : isLastL rest with
            | false =>
              have hbody : body host line v = Step.next v := by
                simp [body, hidx, hb, hs, hlast, hL, hpart, fieldState, StateSkipWhite, StateIp,
                  StateCanonFirst, StateCanon, StateAliasFirst, StateAlias]
              rw [loop, if_pos hlt, hbody]
              simp only
              refine Eq.trans (ih _ rest (some (acc ++ [b])) Phase.aliases canon ?_ ?_ ?_) ?_
              · exact ⟨hc, pre ++ [b], hl2, by simp [hi],
                  Or.inr (Or.inr ⟨hs, acc ++ [b], pre0, rfl,
                    fun _ => ⟨by rw [hp]; simp, hstart⟩⟩)⟩
              · omega
              · omega
              · simp [scan, hb, hL]
            | true =>
              by_cases hm : acc ++ [b] = host
              · subst hm
                simp [loop, hlt, body, hidx, hb, hs, hlast, hL, hpart, fieldState,
                  StateSkipWhite, StateIp, StateCanonFirst, StateCanon, StateAliasFirst,
                  StateAlias, scan, hc]
              · have hbody : body host line v = Step.next
                    { v with state := StateSkipWhite, nextState := StateAliasFirst } := by
                  simp [body, hidx, hb, hs, hlast, hL, hpart, fieldState, StateSkipWhite,
                    StateIp, StateCanonFirst, StateCanon, StateAliasFirst, StateAlias, hm]
                rw [loop, if_pos hlt, hbody]
                simp only
                refine Eq.trans (ih _ rest none Phase.aliases canon ?_ ?_ ?_) ?_
                · exact ⟨hc, pre ++ [b], hl2, by simp [hi], Or.inl ⟨rfl, rfl, rfl⟩⟩
                · simp [spent, StateSkipWhite]; omega
                · omega
                · simp [scan, hb, hL, hm]

theorem parseHostLine_eq_scan (host line : Str) :
    parseHostLine host line = Exec.ret (scan host none Phase.addr [] line) := by
  unfold parseHostLine
  refine loop_eq_scan host line _ initVars line none Phase.addr [] ?_ ?_ ?_
  · exact ⟨rfl, [], rfl, rfl, Or.inl ⟨rfl, rfl, rfl⟩⟩
  · simp [initVars, spent, StateSkipWhite]
  · omega

theorem finish_nil (host : Str) (ph : Phase) (canon : Str) :
    finish host ph canon [] = ([], false) := by
  cases ph <;> simp [finish, verdict]

theorem tokensFrom_last (acc : Str) (b : Nat) (rest : Str) (h : isLastL rest = true) :
    tokensFrom (acc ++ [b]) rest = (acc ++ [b]) :: tokensFrom [] rest := by
  cases rest with
  | nil => simp [tokensFrom]
  | cons c rest' =>
    have hc : isWhite c = true := h
    by_cases h35 : c = 35
    · simp [h35, isWhite] at hc
    · simp [tokensFrom, h35, hc]

theorem scan_eq_finish (host : Str) :
    ∀ (suf : Str) (cur : Option Str) (ph : Phase) (canon : Str),
      (cur = none ∨ ∃ b rest, suf = b :: rest ∧ ¬ isWhite b = true) →
      scan host cur ph canon suf = finish host ph canon (tokensFrom (cur.getD []) suf) := by
  intro suf
  induction suf with
  | nil =>
    intro cur ph canon h
    rcases h with h | ⟨b, rest, h, _⟩
    · subst h; simp [scan, tokensFrom, finish_nil]
    · cases h
  | cons b rest ih =>
    intro cur ph canon h
    by_cases hb : b = 35
    · simp [scan, tokensFrom, hb, finish_nil]
    · by_cases hw : cur = none ∧ isWhite b = true
      · obtain ⟨hcur, hw⟩ := hw
        subst hcur
        simp [scan, tokensFrom, hb, hw, ih none ph canon (Or.inl rfl)]
      · have hnw : ¬ isWhite b = true := by
          rcases h with h | ⟨b', rest', h, h'⟩
          · exact fun hw' => hw ⟨h, hw'⟩
          · cases h; exact h'
        have hstep : tokensFrom (cur.getD []) (b :: rest)
            = tokensFrom (cur.getD [] ++ [b]) rest := by
          simp [tokensFrom, hb, hnw]
        rw [hstep]
        cases hL : isLastL rest with
        | true =>
          rw [tokensFrom_last _ _ _ hL]
          have ih0 := fun ph canon => ih none ph canon (Or.inl rfl)
          simp only [Option.getD_none] at ih0
          cases ph with
          | addr =>
            simp [scan, hb, hw, hL, ih0, finish]
            cases tokensFrom [] rest <;> simp [verdict]
          | canon =>
            by_cases hv : isValidHostname (cur.getD [] ++ [b]) = true
            · by_cases hm : cur.getD [] ++ [b] = host
              · subst hm
                simp [scan, hb, hw, hL, finish, verdict, hv]
              · have hm' : ¬ host = cur.getD [] ++ [b] := fun e => hm e.symm
                simp [scan, hb, hw, hL, ih0, finish, verdict, hv, hm, hm']
            · simp [scan, hb, hw, hL, finish, verdict, hv]
          | aliases =>
            by_cases hm : cur.getD [] ++ [b] = host
            · subst hm
              simp [scan, hb, hw, hL, finish]
            · have hm' : ¬ host = cur.getD [] ++ [b] := fun e => hm e.symm
              simp [scan, hb, hw, hL, ih0, finish, hm, hm']
        | false =>
          have hrest : ∃ c rest', rest = c :: rest' ∧ ¬ isWhite c = true := by
            cases rest with
            | nil => simp [isLastL] at hL
            | cons c rest' => exact ⟨c, rest', rfl, by simpa [isLastL] using hL⟩
          have := ih (some (cur.getD [] ++ [b])) ph canon (Or.inr hrest)
          simp only [Option.getD_some] at this
          simp [scan, hb, hw, hL, this]

/-- The loop of `parseHostLine` always returns, and its result is the verdict
on the completed fields of the line. -/
theorem parseHostLine_eq_verdict (host line : Str) :
    parseHostLine host line = Exec.ret (verdict host (tokens line)) := by
  rw [parseHostLine_eq_scan, scan_eq_finish host line none Phase.addr [] (Or.inl rfl)]
  rfl

theorem modifyHead_self (l : List Str) : l.modifyHead (fun f => f) = l := by
  cases l <;> rfl

theorem fieldsFrom_nil (acc : Str) :
    fieldsFrom acc [] = if acc = [] then [] else [acc] := by
  cases acc <;> simp [fieldsFrom, List.splitOnP_nil]

theorem fieldsFrom_cons (acc : Str) (b : Nat) (rest : Str) :
    fieldsFrom acc (b :: rest) =
      if isWhite b then (if acc = [] then fieldsFrom [] rest else acc :: fieldsFrom [] rest)
      else fieldsFrom (acc ++ [b]) rest := by
  unfold fieldsFrom
  rw [List.splitOnP_cons]
  by_cases hw : isWhite b = true
  · cases acc <;> simp [hw, modifyHead_self]
  · simp only [hw, if_false, Bool.false_eq_true, List.modifyHead_modifyHead]
    congr 2
    funext f
    simp

theorem fields_eq_fieldsFrom (line : Str) : fields line = fieldsFrom [] line := by
  simp [fields, fieldsFrom, modifyHead_self]

theorem tokensFrom_eq_fieldsFrom :
    ∀ (suf acc : Str), (35 : Nat) ∉ suf → tokensFrom acc suf = fieldsFrom acc suf := by
  intro suf
  induction suf with
  | nil => intro acc _; simp [tokensFrom, fieldsFrom_nil]
  | cons b rest ih =>
    intro acc h
    have hb : ¬ b = 35 := fun e => h (by simp [e])
    have hr : (35 : Nat) ∉ rest := fun e => h (by simp [e])
    rw [fieldsFrom_cons, tokensFrom]
    simp only [hb, if_false, ih _ hr]

theorem tokensFrom_prefix_fieldsFrom :
    ∀ (suf acc : Str), tokensFrom acc suf <+: fieldsFrom acc suf := by
  intro suf
  induction suf with
  | nil => intro acc; simp [tokensFrom, fieldsFrom_nil]
  | cons b rest ih =>
    intro acc
    rw [fieldsFrom_cons, tokensFrom]
    by_cases hb : b = 35
    · simp [hb]
    · simp only [hb, if_false]
      by_cases hw : isWhite b = true
      · by_cases ha : acc = []
        · simp only [hw, ha, if_true]; exact ih []
        · simp only [hw, ha, if_true, if_false]
          exact (List.prefix_cons_inj acc).mpr (ih [])
      · simp only [hw, if_false, Bool.false_eq_true]; exact ih _

theorem tokens_eq_fields (line : Str) (h : (35 : Nat) ∉ line) : tokens line = fields line := by
  rw [fields_eq_fieldsFrom]; exact tokensFrom_eq_fieldsFrom line [] h

theorem tokens_prefix_fields (line : Str) : tokens line <+: fields line := by
  rw [fields_eq_fieldsFrom]; exact tokensFrom_prefix_fieldsFrom line []

/-! ## `isValidHostname` -/

theorem decodeRune_ascii (s0 : Nat) (rest : Str) (h : s0 < 128) :
    decodeRune s0 rest = (s0, 1) := by
  simp [decodeRune, h]

theorem decodeMulti_high (s0 sz lo hi : Nat) (rest : Str) (hlo : 128 ≤ lo) (hhi : hi ≤ 191)
    (h2 : sz ≤ 2 → 2 ≤ s0 % 32) (h3 : sz = 3 → 1 ≤ s0 % 16 ∨ 160 ≤ lo)
    (h4 : 3 < sz → 1 ≤ s0 % 8 ∨ 144 ≤ lo) :
    128 ≤ (decodeMulti s0 sz lo hi rest).1 ∧
      ∀ x ∈ rest.take ((decodeMulti s0 sz lo hi rest).2 - 1), 128 ≤ x := by
  rcases rest with _ | ⟨s1, _ | ⟨s2, _ | ⟨s3, r3⟩⟩⟩ <;> simp only [decodeMulti] <;>
    split_ifs <;> refine ⟨?_, fun x hx => ?_⟩ <;>
    first
    | (dsimp only [RuneError]; omega)
    | (simp at hx <;> omega)

/-- A first byte with the high bit set decodes to a rune of at least 0x80,
and every further byte of that rune has the high bit set as well. -/
theorem decodeRune_high (s0 : Nat) (rest : Str) (h : 128 ≤ s0) :
    128 ≤ (decodeRune s0 rest).1 ∧ ∀ x ∈ rest.take ((decodeRune s0 rest).2 - 1), 128 ≤ x := by
  unfold decodeRune
  have h0 : ¬ s0 < 128 := by omega
  rw [if_neg h0]
  split
  · exact ⟨by decide, fun x hx => by simp at hx⟩
  · rename_i h1
    apply decodeMulti_high
    · split_ifs <;> omega
    · split_ifs <;> omega
    · intro hsz; split_ifs at hsz <;> omega
    · intro hsz; split_ifs at hsz <;> first | omega | (split_ifs <;> omega)
    · intro hsz; split_ifs at hsz <;> first | omega | (split_ifs <;> omega)

theorem okRune_iff (c : Nat) : okRune c = true ↔ okByte c := by
  simp only [okRune, isalnum, okByte, Bool.or_eq_true, Bool.and_eq_true, decide_eq_true_eq]
  omega

theorem validRunes_iff :
    ∀ (s : Str) (k : Nat), (∀ x ∈ s.take k, 128 ≤ x) →
      (validRunes k s = true ↔ ∀ b ∈ s, okByte b) := by
  intro s
  induction s with
  | nil => intro k _; simp [validRunes]
  | cons b rest ih =>
    intro k hk
    cases k with
    | succ k =>
      have hb : 128 ≤ b := hk b (by simp)
      have hr : ∀ x ∈ rest.take k, 128 ≤ x := fun x hx => hk x (by simp [hx])
      have hob : okByte b := by unfold okByte; omega
      simp only [validRunes, ih k hr, List.mem_cons, forall_eq_or_imp, hob, true_and]
    | zero =>
      simp only [validRunes, List.mem_cons, forall_eq_or_imp]
      by_cases hb : b < 128
      · rw [decodeRune_ascii b rest hb]
        have h0 : ∀ x ∈ rest.take (1 - 1), 128 ≤ x := fun x hx => by simp at hx
        by_cases ho : okRune b = true
        · simp only [ho, Bool.not_true, Bool.false_eq_true, if_false, ih _ h0,
            (okRune_iff b).mp ho, true_and]
        · have : ¬ okByte b := fun h => ho ((okRune_iff b).mpr h)
          simp [ho, this]
      · obtain ⟨h1, h2⟩ := decodeRune_high b rest (by omega)
        have ho : okRune (decodeRune b rest).1 = true := by
          rw [okRune_iff]; unfold okByte; omega
        have hob : okByte b := by unfold okByte; omega
        simp only [ho, Bool.not_true, Bool.false_eq_true, if_false, ih _ h2, hob, true_and]

/-- The rune loop of `isValidHostname` agrees with the byte-level reading. -/
theorem isValidHostname_bytes (s : Str) :
    isValidHostname s = true ↔ (s.length ≤ 254 ∧ ∀ b ∈ s, okByte b) := by
  unfold isValidHostname maxHostnameLen
  by_cases hl : s.length > 254
  · simp only [hl, if_true, Bool.false_eq_true, false_iff]
    intro h; omega
  · rw [if_neg hl, validRunes_iff s 0 (fun x hx => by simp at hx)]
    constructor
    · intro h; exact ⟨by omega, h⟩
    · intro h; exact h.2

/-- C4: `isValidHostname s` holds exactly when `s` has at most 254 bytes and
every byte is an ASCII letter, an ASCII digit, `.`, `-` or at least 0x80; the
rune-by-rune iteration of the code agrees with this byte-level reading, also
on bytes that are not valid UTF-8 (such a byte decodes to U+FFFD), and the
empty string is accepted. -/
theorem isValidHostname_iff :
    (∀ s : Str, isValidHostname s = true ↔ (s.length ≤ 254 ∧ ∀ b ∈ s, okByte b)) ∧
    decodeRune 0xFF [] = (0xFFFD, 1) ∧ isValidHostname [0xFF] = true ∧
    isValidHostname [] = true := by
  refine ⟨fun s => ?_, by decide, by decide, by decide⟩
  have h := validRunes_iff s 0 (fun x hx => by simp at hx)
  unfold isValidHostname maxHostnameLen
  by_cases hl : s.length > 254
  · rw [if_pos hl]
    constructor
    · intro hf; cases hf
    · intro hb; omega
  · rw [if_neg hl, h]
    exact ⟨fun hb => ⟨by omega, hb⟩, fun hb => hb.2⟩

/-! ## Claims about `parseHostLine` -/

/-- C1: for every target host and every line that contains no `#`,
`parseHostLine` returns, and its result is that of the reference: split the
line into its fields; when there are at least two fields, the second one is a
valid hostname and the host equals it or a later field, the result is that
second field with `true`, otherwise the empty string with `false`. The first
field plays no part. -/
theorem parseHostLine_eq_ref (host line : Str) (h : (35 : Nat) ∉ line) :
    parseHostLine host line = Exec.ret (parseHostLineRef host line) := by
  rw [parseHostLine_eq_verdict, tokens_eq_fields line h, parseHostLineRef]

/-- C1, on the line `127.0.0.1 host.example.com host alias1`: the reference
and the code give `host.example.com` for the hosts `host` and `alias1`. -/
theorem parseHostLine_eq_ref_witness :
    ((35 : Nat) ∉ bytes "127.0.0.1 host.example.com host alias1" ∧
      parseHostLineRef (bytes "host") (bytes "127.0.0.1 host.example.com host alias1")
        = (bytes "host.example.com", true) ∧
      parseHostLine (bytes "host") (bytes "127.0.0.1 host.example.com host alias1")
        = Exec.ret (parseHostLineRef (bytes "host")
            (bytes "127.0.0.1 host.example.com host alias1"))) ∧
    ((35 : Nat) ∉ bytes "127.0.0.1 host.example.com host alias1" ∧
      parseHostLineRef (bytes "alias1") (bytes "127.0.0.1 host.example.com host alias1")
        = (bytes "host.example.com", true) ∧
      parseHostLine (bytes "alias1") (bytes "127.0.0.1 host.example.com host alias1")
        = Exec.ret (parseHostLineRef (bytes "alias1")
            (bytes "127.0.0.1 host.example.com host alias1"))) :=
  ⟨⟨by decide, by decide, parseHostLine_eq_ref _ _ (by decide)⟩,
   ⟨by decide, by decide, parseHostLine_eq_ref _ _ (by decide)⟩⟩

theorem tokensFrom_mem :
    ∀ (suf acc t : Str), t ∈ tokensFrom acc suf → t ≠ [] ∧ t <:+: acc ++ suf := by
  intro suf
  induction suf with
  | nil =>
    intro acc t ht
    by_cases ha : acc = []
    · simp [tokensFrom, ha] at ht
    · simp only [tokensFrom, ha, if_false, List.mem_singleton] at ht
      subst ht
      exact ⟨ha, by simp⟩
  | cons b rest ih =>
    intro acc t ht
    rw [tokensFrom] at ht
    by_cases hb : b = 35
    · simp [hb] at ht
    · simp only [hb, if_false] at ht
      have hrest : ∀ t, t ∈ tokensFrom [] rest → t ≠ [] ∧ t <:+: acc ++ b :: rest := by
        intro t ht
        obtain ⟨h1, h2⟩ := ih [] t ht
        refine ⟨h1, ?_⟩
        rw [List.nil_append] at h2
        exact h2.trans ((List.suffix_cons b rest).isInfix.trans
          (List.suffix_append acc (b :: rest)).isInfix)
      by_cases hw : isWhite b = true
      · by_cases ha : acc = []
        · simp only [hw, ha, if_true] at ht
          exact hrest t ht
        · simp only [hw, ha, if_true, if_false, List.mem_cons] at ht
          rcases ht with ht | ht
          · subst ht
            exact ⟨ha, (List.prefix_append t (b :: rest)).isInfix⟩
          · exact hrest t ht
      · simp only [hw, if_false, Bool.false_eq_true] at ht
        have := ih (acc ++ [b]) t ht
        simpa using this

theorem verdict_true (host c : Str) (ts : List Str) (h : verdict host ts = (c, true)) :
    ∃ a rest, ts = a :: c :: rest ∧ isValidHostname c = true ∧ host ∈ c :: rest := by
  rcases ts with _ | ⟨a, _ | ⟨c', rest⟩⟩
  · simp [verdict] at h
  · simp [verdict] at h
  · rw [verdict] at h
    by_cases hc : isValidHostname c' = true ∧ host ∈ c' :: rest
    · rw [if_pos hc] at h
      have : c' = c := by simpa using h
      subst this
      exact ⟨a, rest, rfl, hc.1, hc.2⟩
    · rw [if_neg hc] at h
      simp at h

/-- C2: whenever `parseHostLine` reports a match, the returned name is
non-empty, is a contiguous part of the line and satisfies `isValidHostname`
(so it has at most 254 bytes), whether the host matched the canonical field
or an alias. -/
theorem parseHostLine_match_valid (host line c : Str)
    (h : parseHostLine host line = Exec.ret (c, true)) :
    c ≠ [] ∧ c <:+: line ∧ isValidHostname c = true ∧ c.length ≤ 254 := by
  rw [parseHostLine_eq_verdict] at h
  have hv : verdict host (tokens line) = (c, true) := by
    injection h
  obtain ⟨a, rest, hts, hvalid, _⟩ := verdict_true host c _ hv
  have hmem : c ∈ tokensFrom [] line := by
    show c ∈ tokens line
    rw [hts]; simp
  obtain ⟨h1, h2⟩ := tokensFrom_mem line [] c hmem
  refine ⟨h1, by simpa using h2, hvalid, ?_⟩
  exact ((isValidHostname_bytes c).mp hvalid).1

/-- C2, on the line `127.0.0.1 host.example.com host alias1`: a match on the
canonical field (host `host.example.com`) and a match on an alias (host
`alias1`). -/
theorem parseHostLine_match_valid_witness :
    (parseHostLine (bytes "host.example.com") (bytes "127.0.0.1 host.example.com host alias1")
        = Exec.ret (bytes "host.example.com", true) ∧
      (bytes "host.example.com" ≠ [] ∧
        bytes "host.example.com" <:+: bytes "127.0.0.1 host.example.com host alias1" ∧
        isValidHostname (bytes "host.example.com") = true ∧
        (bytes "host.example.com").length ≤ 254)) ∧
    (parseHostLine (bytes "alias1") (bytes "127.0.0.1 host.example.com host alias1")
        = Exec.ret (bytes "host.example.com", true) ∧
      (bytes "host.example.com" ≠ [] ∧
        bytes "host.example.com" <:+: bytes "127.0.0.1 host.example.com host alias1" ∧
        isValidHostname (bytes "host.example.com") = true ∧
        (bytes "host.example.com").length ≤ 254)) :=
  ⟨⟨by decide, parseHostLine_match_valid (bytes "host.example.com")
      (bytes "127.0.0.1 host.example.com host alias1") (bytes "host.example.com") (by decide)⟩,
   ⟨by decide, parseHostLine_match_valid (bytes "alias1")
      (bytes "127.0.0.1 host.example.com host alias1") (bytes "host.example.com") (by decide)⟩⟩

/-- C3: when the second whitespace-delimited field of the line does not
satisfy `isValidHostname`, `parseHostLine` returns the empty string and
`false` for every target host, also when the host is that field itself or a
field that follows it. -/
theorem parseHostLine_invalid_canon (host line c : Str)
    (hc : (fields line).get? 1 = some c) (hv : isValidHostname c = false) :
    parseHostLine host line = Exec.ret ([], false) := by
  rw [parseHostLine_eq_verdict]
  obtain ⟨extra, he⟩ := tokens_prefix_fields line
  rcases hts : tokens line with _ | ⟨a, _ | ⟨c', rest⟩⟩
  · rfl
  · rfl
  · rw [hts] at he
    rw [← he] at hc
    have : c' = c := by simpa using hc
    subst this
    simp [verdict, hv]

/-- C3, on the lines `127.0.0.1 bad_host` (host `bad_host`) and
`127.0.0.1 bad_host good` (host `good`). -/
theorem parseHostLine_invalid_canon_witness :
    ((fields (bytes "127.0.0.1 bad_host")).get? 1 = some (bytes "bad_host") ∧
      isValidHostname (bytes "bad_host") = false ∧
      parseHostLine (bytes "bad_host") (bytes "127.0.0.1 bad_host") = Exec.ret ([], false)) ∧
    ((fields (bytes "127.0.0.1 bad_host good")).get? 1 = some (bytes "bad_host") ∧
      isValidHostname (bytes "bad_host") = false ∧
      parseHostLine (bytes "good") (bytes "127.0.0.1 bad_host good") = Exec.ret ([], false)) :=
  ⟨⟨by decide, by decide,
      parseHostLine_invalid_canon _ _ (bytes "bad_host") (by decide) (by decide)⟩,
   ⟨by decide, by decide,
      parseHostLine_invalid_canon _ _ (bytes "bad_host") (by decide) (by decide)⟩⟩

theorem tokensFrom_hash :
    ∀ (p acc s s' : Str), tokensFrom acc (p ++ 35 :: s) = tokensFrom acc (p ++ 35 :: s') := by
  intro p
  induction p with
  | nil => intro acc s s'; simp [tokensFrom]
  | cons b rest ih =>
    intro acc s s'
    rw [List.cons_append, List.cons_append, tokensFrom, tokensFrom, ih [] s s',
      ih (acc ++ [b]) s s']

/-- C5: text after the first `#` never influences the result: for a prefix
`p` without `#`, the lines `p ++ "#" ++ s` and `p ++ "#" ++ s'` give the same
result for every host; a name that appears only after the `#` is not
matched. -/
theorem parseHostLine_comment_ignored (host p s s' : Str) (_hp : (35 : Nat) ∉ p) :
    parseHostLine host (p ++ 35 :: s) = parseHostLine host (p ++ 35 :: s') := by
  rw [parseHostLine_eq_verdict, parseHostLine_eq_verdict, tokens, tokens,
    tokensFrom_hash p [] s s']

/-- C5, on the prefix `1.2.3.4 host.example.com `: the alias `host` written
after the `#` is not matched, as if nothing followed the `#`. -/
theorem parseHostLine_comment_ignored_witness :
    (35 : Nat) ∉ bytes "1.2.3.4 host.example.com " ∧
    parseHostLine (bytes "host") (bytes "1.2.3.4 host.example.com " ++ 35 :: bytes " host")
      = parseHostLine (bytes "host") (bytes "1.2.3.4 host.example.com " ++ 35 :: []) ∧
    parseHostLine (bytes "host") (bytes "1.2.3.4 host.example.com " ++ 35 :: bytes " host")
      = Exec.ret ([], false) :=
  ⟨by decide,
   parseHostLine_comment_ignored (bytes "host") (bytes "1.2.3.4 host.example.com ")
     (bytes " host") [] (by decide),
   by decide⟩

theorem tokensFrom_hash_initial :
    ∀ (p acc s : Str), tokensFrom acc (p ++ 35 :: s) <+: tokensFrom acc p := by
  intro p
  induction p with
  | nil => intro acc s; simp [tokensFrom]
  | cons b rest ih =>
    intro acc s
    rw [List.cons_append, tokensFrom, tokensFrom]
    by_cases hb : b = 35
    · simp [hb]
    · simp only [hb, if_false]
      by_cases hw : isWhite b = true
      · by_cases ha : acc = []
        · simp only [hw, ha, if_true]; exact ih [] s
        · simp only [hw, ha, if_true, if_false]
          exact (List.prefix_cons_inj acc).mpr (ih [] s)
      · simp only [hw, if_false, Bool.false_eq_true]; exact ih _ s

theorem tokensFrom_hash_complete :
    ∀ (p acc s : Str), (∀ x ∈ acc, ¬ isWhite x = true) →
      (∀ w ∈ (acc ++ p).getLast?, isWhite w = true) →
      tokensFrom acc (p ++ 35 :: s) = tokensFrom acc p := by
  intro p
  induction p with
  | nil =>
    intro acc s hacc hlast
    have ha : acc = [] := by
      rcases List.eq_nil_or_concat acc with h | ⟨l, x, h⟩
      · exact h
      · subst h
        have h1 : isWhite x = true := hlast x (by simp)
        exact absurd h1 (hacc x (by simp))
    simp [tokensFrom, ha]
  | cons b rest ih =>
    intro acc s hacc hlast
    rw [List.cons_append, tokensFrom, tokensFrom]
    by_cases hb : b = 35
    · simp [hb]
    · simp only [hb, if_false]
      have h0 : tokensFrom [] (rest ++ 35 :: s) = tokensFrom [] rest := by
        apply ih [] s (by simp)
        intro w hw
        rw [List.nil_append] at hw
        apply hlast w
        cases rest with
        | nil => simp at hw
        | cons c rest' =>
          rw [show acc ++ b :: c :: rest' = (acc ++ [b]) ++ c :: rest' by simp,
            List.getLast?_append_cons]
          exact hw
      by_cases hw : isWhite b = true
      · simp only [hw, if_true, h0]
      · simp only [hw, if_false, Bool.false_eq_true]
        apply ih (acc ++ [b]) s
        · intro x hx
          rcases List.mem_append.mp hx with hx | hx
          · exact hacc x hx
          · have : x = b := by simpa using hx
            rw [this]; exact hw
        · intro w hw'
          apply hlast w
          rw [show acc ++ b :: rest = (acc ++ [b]) ++ rest by simp]
          exact hw'

theorem verdict_extend (host : Str) (ts ts' : List Str) (h : ts <+: ts') :
    verdict host ts = verdict host ts' ∨ verdict host ts = ([], false) := by
  obtain ⟨extra, he⟩ := h
  rcases ts with _ | ⟨a, _ | ⟨c, rest⟩⟩
  · exact Or.inr rfl
  · exact Or.inr rfl
  · subst he
    by_cases hc : isValidHostname c = true ∧ host ∈ c :: rest
    · left
      have hc' : isValidHostname c = true ∧ host ∈ c :: (rest ++ extra) := by
        refine ⟨hc.1, ?_⟩
        rcases List.mem_cons.mp hc.2 with h | h
        · exact List.mem_cons.mpr (Or.inl h)
        · exact List.mem_cons.mpr (Or.inr (List.mem_append.mpr (Or.inl h)))
      simp only [List.cons_append, verdict, if_pos hc, if_pos hc']
    · right
      simp only [verdict, if_neg hc]

/-- C6 as stated fails: with the prefix `1.2.3.4 host` (no `#`) and the host
`host`, the line `1.2.3.4 host#` gives no match whereas the prefix alone
gives the match `host`. -/
theorem parseHostLine_hash_cut_counterexample :
    (35 : Nat) ∉ bytes "1.2.3.4 host" ∧
    parseHostLine (bytes "host") (bytes "1.2.3.4 host" ++ 35 :: []) = Exec.ret ([], false) ∧
    parseHostLine (bytes "host") (bytes "1.2.3.4 host") = Exec.ret (bytes "host", true) ∧
    parseHostLine (bytes "host") (bytes "1.2.3.4 host" ++ 35 :: [])
      ≠ parseHostLine (bytes "host") (bytes "1.2.3.4 host") := by
  decide

/-- C6, amended: for a prefix `p` without `#` that is empty or ends in a
space or tab, the line `p ++ "#" ++ s` gives the result of `p`; for any
prefix `p` without `#` it gives either the result of `p` or no match (the
field that runs into the `#` is not completed). -/
theorem parseHostLine_hash_cut (host p s : Str) (_hp : (35 : Nat) ∉ p) :
    ((∀ w ∈ p.getLast?, isWhite w = true) →
      parseHostLine host (p ++ 35 :: s) = parseHostLine host p) ∧
    (parseHostLine host (p ++ 35 :: s) = parseHostLine host p ∨
      parseHostLine host (p ++ 35 :: s) = Exec.ret ([], false)) := by
  simp only [parseHostLine_eq_verdict, tokens]
  constructor
  · intro hl
    rw [tokensFrom_hash_complete p [] s (by simp) (by simpa using hl)]
  · rcases verdict_extend host _ _ (tokensFrom_hash_initial p [] s) with h | h
    · exact Or.inl (by rw [h])
    · exact Or.inr (by rw [h])

/-- C6, amended, on the prefix `1.2.3.4 host.example.com host ` (ending in a
space) with the suffix `x`: the match is kept. -/
theorem parseHostLine_hash_cut_witness :
    (35 : Nat) ∉ bytes "1.2.3.4 host.example.com host " ∧
    (∀ w ∈ (bytes "1.2.3.4 host.example.com host ").getLast?, isWhite w = true) ∧
    parseHostLine (bytes "host") (bytes "1.2.3.4 host.example.com host " ++ 35 :: bytes "x")
      = parseHostLine (bytes "host") (bytes "1.2.3.4 host.example.com host ") ∧
    parseHostLine (bytes "host") (bytes "1.2.3.4 host.example.com host " ++ 35 :: bytes "x")
      = Exec.ret (bytes "host.example.com", true) :=
  ⟨by decide, by decide,
   (parseHostLine_hash_cut (bytes "host") (bytes "1.2.3.4 host.example.com host ")
     (bytes "x") (by decide)).1 (by decide),
   by decide⟩

theorem isWhite_ne_hash (w : Nat) (h : isWhite w = true) : ¬ w = 35 := by
  intro e; subst e; simp [isWhite] at h

theorem tokensFrom_white (acc : Str) (w : Nat) (rest : Str) (h : isWhite w = true) :
    tokensFrom acc (w :: rest) =
      if acc = [] then tokensFrom [] rest else acc :: tokensFrom [] rest := by
  rw [tokensFrom]
  simp only [isWhite_ne_hash w h, h, if_false, if_true]

theorem tokensFrom_white_dup (w w' : Nat) (hw : isWhite w = true) (hw' : isWhite w' = true) :
    ∀ (u acc v : Str), tokensFrom acc (u ++ w :: v) = tokensFrom acc (u ++ w :: w' :: v) := by
  intro u
  induction u with
  | nil =>
    intro acc v
    rw [List.nil_append, List.nil_append, tokensFrom_white acc w _ hw,
      tokensFrom_white acc w _ hw, tokensFrom_white [] w' _ hw']
    simp
  | cons b rest ih =>
    intro acc v
    rw [List.cons_append, List.cons_append, tokensFrom, tokensFrom, ih [] v,
      ih (acc ++ [b]) v]

theorem tokensFrom_collapse (w : Nat) (hw : isWhite w = true) :
    ∀ (line acc : Str), tokensFrom acc (collapse w line) = tokensFrom acc line := by
  intro line
  induction line with
  | nil => intro acc; rfl
  | cons b rest ih =>
    intro acc
    rw [collapse]
    by_cases hb : isWhite b = true
    · rw [if_pos hb, tokensFrom_white acc b rest hb]
      cases rest with
      | nil =>
        simp only [startsWhite, Bool.false_eq_true, if_false, collapse]
        rw [tokensFrom_white acc w [] hw]
      | cons c rest' =>
        by_cases hc : isWhite c = true
        · have hs : startsWhite (c :: rest') = true := hc
          rw [if_pos hs, ih acc, tokensFrom_white acc c rest' hc,
            tokensFrom_white [] c rest' hc]
          simp
        · have hs : ¬ startsWhite (c :: rest') = true := hc
          rw [if_neg hs, tokensFrom_white acc w _ hw, ih []]
    · rw [if_neg hb, tokensFrom, tokensFrom, ih (acc ++ [b]), ih []]

/-- C7: runs of whitespace collapse to one separator: replacing every maximal
run of spaces and tabs of the line by the single byte `w` (a space or a tab)
does not change the result of `parseHostLine`, and neither does inserting a
further space or tab `w'` after an occurrence of `w` in the line. -/
theorem parseHostLine_collapse (host line : Str) (w : Nat) (hw : isWhite w = true) :
    parseHostLine host (collapse w line) = parseHostLine host line ∧
    ∀ (u v : Str) (w' : Nat), line = u ++ w :: v → isWhite w' = true →
      parseHostLine host (u ++ w :: w' :: v) = parseHostLine host line := by
  constructor
  · rw [parseHostLine_eq_verdict, parseHostLine_eq_verdict, tokens, tokens,
      tokensFrom_collapse w hw line []]
  · intro u v w' hl hw'
    subst hl
    rw [parseHostLine_eq_verdict, parseHostLine_eq_verdict, tokens, tokens,
      tokensFrom_white_dup w w' hw hw' u [] v]

/-- C7, on the line `10.0.0.5  myhost.example.com  myhost` (double spaces) and
its single-space form: both give `myhost.example.com` for the host `myhost`. -/
theorem parseHostLine_collapse_witness :
    isWhite 32 = true ∧
    collapse 32 (bytes "10.0.0.5  myhost.example.com  myhost")
      = bytes "10.0.0.5 myhost.example.com myhost" ∧
    parseHostLine (bytes "myhost") (bytes "10.0.0.5  myhost.example.com  myhost")
      = Exec.ret (bytes "myhost.example.com", true) ∧
    parseHostLine (bytes "myhost") (bytes "10.0.0.5 myhost.example.com myhost")
      = Exec.ret (bytes "myhost.example.com", true) ∧
    parseHostLine (bytes "myhost") (collapse 32 (bytes "10.0.0.5  myhost.example.com  myhost"))
      = parseHostLine (bytes "myhost") (bytes "10.0.0.5  myhost.example.com  myhost") :=
  ⟨by decide, by decide, by decide, by decide,
   (parseHostLine_collapse (bytes "myhost") (bytes "10.0.0.5  myhost.example.com  myhost") 32
     (by decide)).1⟩

theorem tokensFrom_all_white :
    ∀ (ws : Str), (∀ b ∈ ws, isWhite b = true) → tokensFrom [] ws = [] := by
  intro ws
  induction ws with
  | nil => intro _; rfl
  | cons b rest ih =>
    intro h
    rw [tokensFrom_white [] b rest (h b (by simp))]
    simp only [if_true]
    exact ih (fun x hx => h x (by simp [hx]))

theorem tokensFrom_white_hash :
    ∀ (ws rest : Str), (∀ b ∈ ws, isWhite b = true) → tokensFrom [] (ws ++ 35 :: rest) = [] := by
  intro ws
  induction ws with
  | nil => intro rest _; simp [tokensFrom]
  | cons b ws' ih =>
    intro rest h
    rw [List.cons_append, tokensFrom_white [] b _ (h b (by simp))]
    simp only [if_true]
    exact ih rest (fun x hx => h x (by simp [hx]))

/-- C8: `parseHostLine` returns the empty string and `false`, for every
host, on the empty line, on a line made of spaces and tabs only, and on a
line whose first byte other than a space or tab is `#`. -/
theorem parseHostLine_blank_or_comment (host ws rest : Str)
    (h : ∀ b ∈ ws, isWhite b = true) :
    parseHostLine host [] = Exec.ret ([], false) ∧
    parseHostLine host ws = Exec.ret ([], false) ∧
    parseHostLine host (ws ++ 35 :: rest) = Exec.ret ([], false) := by
  refine ⟨rfl, ?_, ?_⟩
  · rw [parseHostLine_eq_verdict, tokens, tokensFrom_all_white ws h]; rfl
  · rw [parseHostLine_eq_verdict, tokens, tokensFrom_white_hash ws rest h]; rfl

/-- C8, on the blank line made of a space and a tab and on the comment line
made of it followed by `# 1.2.3.4 host`, for the host `host`. -/
theorem parseHostLine_blank_or_comment_witness :
    (∀ b ∈ bytes " \t", isWhite b = true) ∧
    (parseHostLine (bytes "host") [] = Exec.ret ([], false) ∧
      parseHostLine (bytes "host") (bytes " \t") = Exec.ret ([], false) ∧
      parseHostLine (bytes "host") (bytes " \t" ++ 35 :: bytes " 1.2.3.4 host")
        = Exec.ret ([], false)) :=
  ⟨by decide, parseHostLine_blank_or_comment (bytes "host") (bytes " \t")
    (bytes " 1.2.3.4 host") (by decide)⟩

/-! ## Claims about `fromHosts` and `FqdnHostname` -/

theorem verdict_false (host name : Str) (ts : List Str) (h : verdict host ts = (name, false)) :
    name = [] := by
  rcases ts with _ | ⟨a, _ | ⟨c, rest⟩⟩
  · simp only [verdict, Prod.mk.injEq] at h; exact h.1.symm
  · simp only [verdict, Prod.mk.injEq] at h; exact h.1.symm
  · rw [verdict] at h
    split_ifs at h
    · simp at h
    · simp only [Prod.mk.injEq] at h; exact h.1.symm

theorem matched_eq (host line : Str) :
    matched host line =
      if (verdict host (tokens line)).2 = true then some (verdict host (tokens line)).1
      else none := by
  unfold matched
  rw [parseHostLine_eq_verdict]
  rcases hv : verdict host (tokens line) with ⟨n, ok⟩
  cases ok <;> simp

theorem hostsLoop_eq (host : Str) (final : Err) :
    ∀ lines : List Str, hostsLoop host lines final [] = Exec.ret
      (match lines.findSome? (matched host) with
       | some c => (c, none)
       | none => ([], some (if final ≠ Err.eof then Err.readFailed final
                            else Err.fqdnNotFound))) := by
  intro lines
  induction lines with
  | nil =>
    by_cases hf : final ≠ Err.eof
    · simp only [hostsLoop, if_pos hf, List.findSome?_nil]
    · simp only [hostsLoop, if_neg hf, List.findSome?_nil]
  | cons line rest ih =>
    rw [hostsLoop, parseHostLine_eq_verdict, List.findSome?_cons, matched_eq]
    rcases hv : verdict host (tokens line) with ⟨n, ok⟩
    cases ok with
    | true => simp
    | false =>
      have hn : n = [] := verdict_false host n _ hv
      subst hn
      simp only [Bool.false_eq_true, if_false]
      exact ih

theorem findSome?_split (host : Str) (pre post : List Str) (l c : Str)
    (hpre : ∀ x ∈ pre, matched host x = none) (hl : matched host l = some c) :
    (pre ++ l :: post).findSome? (matched host) = some c := by
  induction pre with
  | nil => simp [List.findSome?_cons, hl]
  | cons x pre' ih =>
    rw [List.cons_append, List.findSome?_cons, hpre x (by simp)]
    exact ih (fun y hy => hpre y (by simp [hy]))

theorem findSome?_none (host : Str) (pre : List Str)
    (hpre : ∀ x ∈ pre, matched host x = none) :
    pre.findSome? (matched host) = none := by
  induction pre with
  | nil => rfl
  | cons x pre' ih =>
    rw [List.findSome?_cons, hpre x (by simp)]
    exact ih (fun y hy => hpre y (by simp [hy]))

/-- C9: with the opened hosts file given as the lines the line reader
delivers before `io.EOF`: when the lines `pre` report no match and the next
line `l` reports the match `c`, `fromHosts` returns `c` with a nil error
whatever lines follow (they are not consulted); and when no line reports a
match, it returns the empty name with the error `errFqdnNotFound{}`. -/
theorem fromHosts_first_match (host : Str) :
    (∀ (pre post : List Str) (l c : Str), (∀ x ∈ pre, matched host x = none) →
      parseHostLine host l = Exec.ret (c, true) →
      fromHosts host (Except.ok ⟨pre ++ l :: post, Err.eof⟩) = Exec.ret (c, none)) ∧
    (∀ lines : List Str, (∀ x ∈ lines, matched host x = none) →
      fromHosts host (Except.ok ⟨lines, Err.eof⟩) = Exec.ret ([], some Err.fqdnNotFound)) := by
  constructor
  · intro pre post l c hpre hl
    have hm : matched host l = some c := by simp [matched, hl]
    simp only [fromHosts]
    rw [hostsLoop_eq, findSome?_split host pre post l c hpre hm]
  · intro lines hnone
    simp only [fromHosts]
    rw [hostsLoop_eq, findSome?_none host lines hnone]
    simp

/-- C9, on a hosts file whose first line is a comment, whose second line has
an invalid canonical name and whose third and fourth lines both list the host
`myhost`: the name of the third line is returned; without the last two lines
the host is not found. -/
theorem fromHosts_first_match_witness :
    ((∀ x ∈ [bytes "# local hosts", bytes "10.0.0.4 bad_name myhost"],
        matched (bytes "myhost") x = none) ∧
      parseHostLine (bytes "myhost") (bytes "10.0.0.5  myhost.example.com  myhost")
        = Exec.ret (bytes "myhost.example.com", true) ∧
      fromHosts (bytes "myhost") (Except.ok
        ⟨[bytes "# local hosts", bytes "10.0.0.4 bad_name myhost"]
          ++ bytes "10.0.0.5  myhost.example.com  myhost"
          :: [bytes "10.0.0.6 other.example.com myhost"], Err.eof⟩)
        = Exec.ret (bytes "myhost.example.com", none)) ∧
    ((∀ x ∈ [bytes "# local hosts", bytes "10.0.0.4 bad_name myhost"],
        matched (bytes "myhost") x = none) ∧
      fromHosts (bytes "myhost") (Except.ok
        ⟨[bytes "# local hosts", bytes "10.0.0.4 bad_name myhost"], Err.eof⟩)
        = Exec.ret ([], some Err.fqdnNotFound)) :=
  ⟨⟨by decide, by decide,
    (fromHosts_first_match (bytes "myhost")).1
      [bytes "# local hosts", bytes "10.0.0.4 bad_name myhost"]
      [bytes "10.0.0.6 other.example.com myhost"]
      (bytes "10.0.0.5  myhost.example.com  myhost") (bytes "myhost.example.com")
      (by decide) (by decide)⟩,
   ⟨by decide,
    (fromHosts_first_match (bytes "myhost")).2
      [bytes "# local hosts", bytes "10.0.0.4 bad_name myhost"] (by decide)⟩⟩

/-- C10: when the hostname lookup succeeds with `h` and the scan of the hosts
file for `h` yields the match `c` (the file could be opened and `c` is the
name matched on its first matching line), `FqdnHostname` returns `c` with a
nil error, and its result is the same for any two DNS resolvers. -/
theorem FqdnHostname_hosts_first (h c : Str) (file : Except Err HostsFile) (dns dns' : Dns)
    (hf : fromHosts h file = Exec.ret (c, none)) :
    FqdnHostname (h, none) file dns = Exec.ret (c, none) ∧
    FqdnHostname (h, none) file dns = FqdnHostname (h, none) file dns' ∧
    ∃ f : HostsFile, file = Except.ok f ∧ f.lines.findSome? (matched h) = some c := by
  refine ⟨by simp only [FqdnHostname, hf], by simp only [FqdnHostname, hf], ?_⟩
  cases file with
  | error e => simp [fromHosts] at hf
  | ok f =>
    refine ⟨f, rfl, ?_⟩
    simp only [fromHosts] at hf
    rw [hostsLoop_eq] at hf
    cases hm : f.lines.findSome? (matched h) with
    | none => rw [hm] at hf; simp at hf
    | some c' =>
      rw [hm] at hf
      simp only [Exec.ret.injEq, Prod.mk.injEq, and_true] at hf
      rw [hf]

/-- C10, with the hostname `myhost` and the hosts line
`10.0.0.5  myhost.example.com  myhost`: the result is `myhost.example.com`
although the resolver would answer `dns.example.org`. -/
theorem FqdnHostname_hosts_first_witness :
    fromHosts (bytes "myhost")
        (Except.ok ⟨[bytes "10.0.0.5  myhost.example.com  myhost"], Err.eof⟩)
      = Exec.ret (bytes "myhost.example.com", none) ∧
    fromLookup dnsExample (bytes "myhost") = (bytes "dns.example.org", none) ∧
    FqdnHostname (bytes "myhost", none)
        (Except.ok ⟨[bytes "10.0.0.5  myhost.example.com  myhost"], Err.eof⟩) dnsExample
      = Exec.ret (bytes "myhost.example.com", none) ∧
    FqdnHostname (bytes "myhost", none)
        (Except.ok ⟨[bytes "10.0.0.5  myhost.example.com  myhost"], Err.eof⟩) dnsExample
      = FqdnHostname (bytes "myhost", none)
        (Except.ok ⟨[bytes "10.0.0.5  myhost.example.com  myhost"], Err.eof⟩) dnsDown :=
  ⟨by decide, by decide,
   (FqdnHostname_hosts_first (bytes "myhost") (bytes "myhost.example.com")
     (Except.ok ⟨[bytes "10.0.0.5  myhost.example.com  myhost"], Err.eof⟩)
     dnsExample dnsDown (by decide)).1,
   (FqdnHostname_hosts_first (bytes "myhost") (bytes "myhost.example.com")
     (Except.ok ⟨[bytes "10.0.0.5  myhost.example.com  myhost"], Err.eof⟩)
     dnsExample dnsDown (by decide)).2.1⟩

/-! ## Claims about `fromLookup` and the error paths of `FqdnHostname` -/

/-- C11: when the hostname lookup fails with the error `e`, `FqdnHostname`
returns the empty name with `errHostnameFailed{e}`, whatever the hosts file
and the resolver are (the result is the same for any two of them). -/
theorem FqdnHostname_hostname_failed (h : Str) (e : Err)
    (file file' : Except Err HostsFile) (dns dns' : Dns) :
    FqdnHostname (h, some e) file dns = Exec.ret ([], some (Err.hostnameFailed e)) ∧
    FqdnHostname (h, some e) file dns = FqdnHostname (h, some e) file' dns' := by
  constructor <;> rfl

theorem fromLookup_eq (dns : Dns) (host : Str) :
    fromLookup dns host = (stripDot (lookupSteps dns host).1, (lookupSteps dns host).2) := rfl

theorem stripDot_eq_lessDot (n : Str) : stripDot n = lessDot n := by
  rcases List.eq_nil_or_concat n with h | ⟨l, x, h⟩
  · subst h; rfl
  · rw [List.concat_eq_append] at h
    subst h
    have h1 : (l ++ [x]).get? ((l ++ [x]).length - 1) = some x := by
      simp [List.get?_eq_getElem?]
    have h2 : (l ++ [x]).take ((l ++ [x]).length - 1) = l := by simp
    have h3 : 0 < (l ++ [x]).length := by simp
    unfold stripDot lessDot
    rw [h1, h2, List.getLast?_concat, List.dropLast_concat]
    simp only [h3, true_and]

theorem lookupSteps_cname (dns : Dns) (host n : Str)
    (hc : dns.lookupCNAME host = (n, none)) (hn : n ≠ []) :
    lookupSteps dns host = (n, none) := by
  have hl : n.length ≠ 0 := by
    intro h0; exact hn (List.length_eq_zero.mp h0)
  simp only [lookupSteps, hc, hl, ne_eq, not_false_eq_true, if_true]

/-- C12: when the canonical-name lookup for the host returns a non-empty name
`n` without error, `fromLookup` returns `n` less one trailing `.` with a nil
error, and so does it for any other resolver with the same canonical-name
answer, whatever its forward and reverse lookups return. -/
theorem fromLookup_cname (dns dns' : Dns) (host n : Str)
    (hc : dns.lookupCNAME host = (n, none)) (hn : n ≠ [])
    (hc' : dns'.lookupCNAME host = (n, none)) :
    fromLookup dns host = (lessDot n, none) ∧ fromLookup dns' host = fromLookup dns host := by
  rw [fromLookup_eq, fromLookup_eq, lookupSteps_cname dns host n hc hn,
    lookupSteps_cname dns' host n hc' hn, stripDot_eq_lessDot]
  exact ⟨rfl, rfl⟩

/-- C12, with the answer `dns.example.org.`: the result is `dns.example.org`
for a resolver without addresses and for one whose reverse lookups would
give other names. -/
theorem fromLookup_cname_witness :
    dnsExample.lookupCNAME (bytes "myhost") = (bytes "dns.example.org.", none) ∧
    bytes "dns.example.org." ≠ [] ∧
    fromLookup dnsExample (bytes "myhost") = (bytes "dns.example.org", none) ∧
    fromLookup { dnsReverse with lookupCNAME := dnsExample.lookupCNAME } (bytes "myhost")
      = fromLookup dnsExample (bytes "myhost") :=
  ⟨by decide, by decide,
   (fromLookup_cname dnsExample { dnsReverse with lookupCNAME := dnsExample.lookupCNAME }
     (bytes "myhost") (bytes "dns.example.org.") (by decide) (by decide) (by decide)).1,
   (fromLookup_cname dnsExample { dnsReverse with lookupCNAME := dnsExample.lookupCNAME }
     (bytes "myhost") (bytes "dns.example.org.") (by decide) (by decide) (by decide)).2⟩

theorem reverseLoop_skip (dns : Dns) (f : Str) :
    ∀ addrs : List Str, (∀ x ∈ addrs, noReverse dns x) →
      reverseLoop dns addrs f = (f, some Err.fqdnNotFound) := by
  intro addrs
  induction addrs with
  | nil => intro _; rfl
  | cons a rest ih =>
    intro h
    have ha := h a (by simp)
    have hr := ih (fun x hx => h x (by simp [hx]))
    unfold noReverse at ha
    rw [reverseLoop]
    rcases hl : dns.lookupAddr a with ⟨names, err⟩
    rw [hl] at ha
    cases names with
    | nil => cases err <;> exact hr
    | cons n ns =>
      cases err with
      | some e => exact hr
      | none => simp at ha

theorem reverseLoop_first (dns : Dns) (f a h : Str) (hs post : List Str)
    (ha : dns.lookupAddr a = (h :: hs, none)) :
    ∀ pre : List Str, (∀ x ∈ pre, noReverse dns x) →
      reverseLoop dns (pre ++ a :: post) f = (h, none) := by
  intro pre
  induction pre with
  | nil => intro _; rw [List.nil_append, reverseLoop, ha]
  | cons b rest ih =>
    intro hpre
    have hb := hpre b (by simp)
    have hr := ih (fun x hx => hpre x (by simp [hx]))
    unfold noReverse at hb
    rw [List.cons_append, reverseLoop]
    rcases hl : dns.lookupAddr b with ⟨names, err⟩
    rw [hl] at hb
    cases names with
    | nil => cases err <;> exact hr
    | cons n ns =>
      cases err with
      | some e => exact hr
      | none => simp at hb

theorem lookupSteps_fallback (dns : Dns) (host n0 : Str) (ce : Option Err)
    (hc : dns.lookupCNAME host = (n0, ce)) (hfail : ce ≠ none ∨ n0 = []) :
    lookupSteps dns host =
      match dns.lookupIP host with
      | (_, some e) => (n0, some (Err.fqdnNotFoundBy e))
      | (addrs, none) => reverseLoop dns addrs n0 := by
  unfold lookupSteps
  rw [hc]
  cases ce with
  | some e => rfl
  | none =>
    have hn : n0 = [] := by
      rcases hfail with h | h
      · exact absurd rfl h
      · exact h
    subst hn
    rfl

/-- C13: when the canonical-name lookup fails or returns an empty name,
`fromLookup` (a) returns `errFqdnNotFound{e}` when the forward lookup fails
with `e`; (b) returns with a nil error the first name, less one trailing `.`,
of the first address whose reverse lookup succeeds with a non-empty list,
the addresses before it being skipped and those after it playing no part;
(c) returns `errFqdnNotFound{}` when every address is skipped, also when
there is no address. -/
theorem fromLookup_fallback (dns : Dns) (host n0 : Str) (ce : Option Err)
    (hc : dns.lookupCNAME host = (n0, ce)) (hfail : ce ≠ none ∨ n0 = []) :
    (∀ (addrs : List Str) (e : Err), dns.lookupIP host = (addrs, some e) →
      fromLookup dns host = (lessDot n0, some (Err.fqdnNotFoundBy e))) ∧
    (∀ (pre post : List Str) (a h : Str) (hs : List Str),
      dns.lookupIP host = (pre ++ a :: post, none) → (∀ x ∈ pre, noReverse dns x) →
      dns.lookupAddr a = (h :: hs, none) →
      fromLookup dns host = (lessDot h, none)) ∧
    (∀ addrs : List Str, dns.lookupIP host = (addrs, none) →
      (∀ x ∈ addrs, noReverse dns x) →
      fromLookup dns host = (lessDot n0, some Err.fqdnNotFound)) := by
  have hsteps := lookupSteps_fallback dns host n0 ce hc hfail
  refine ⟨?_, ?_, ?_⟩
  · intro addrs e hip
    rw [fromLookup_eq, hsteps, hip, stripDot_eq_lessDot]
  · intro pre post a h hs hip hpre ha
    rw [fromLookup_eq, hsteps, hip]
    simp only
    rw [reverseLoop_first dns n0 a h hs post ha pre hpre, stripDot_eq_lessDot]
  · intro addrs hip hall
    rw [fromLookup_eq, hsteps, hip]
    simp only
    rw [reverseLoop_skip dns n0 addrs hall, stripDot_eq_lessDot]

/-- C13, (b) on a resolver whose addresses `10.0.0.1` (reverse lookup fails)
and `10.0.0.2` (no name) are skipped and whose address `10.0.0.3` gives
`host.example.com.`; (a) and (c) on a resolver for which every lookup fails
and on one without addresses. -/
theorem fromLookup_fallback_witness :
    (dnsReverse.lookupCNAME (bytes "myhost") = ([], some (Err.sys 3)) ∧
      (∀ x ∈ [bytes "10.0.0.1", bytes "10.0.0.2"], noReverse dnsReverse x) ∧
      fromLookup dnsReverse (bytes "myhost") = (bytes "host.example.com", none)) ∧
    (dnsDown.lookupCNAME (bytes "myhost") = ([], some (Err.sys 1)) ∧
      fromLookup dnsDown (bytes "myhost") = ([], some (Err.fqdnNotFoundBy (Err.sys 1)))) ∧
    ({ dnsDown with lookupIP := fun _ => ([], none) }.lookupCNAME (bytes "myhost")
        = ([], some (Err.sys 1)) ∧
      fromLookup { dnsDown with lookupIP := fun _ => ([], none) } (bytes "myhost")
        = ([], some Err.fqdnNotFound)) :=
  ⟨⟨by decide, by decide,
    (fromLookup_fallback dnsReverse (bytes "myhost") [] (some (Err.sys 3)) (by decide)
      (Or.inl (by decide))).2.1 [bytes "10.0.0.1", bytes "10.0.0.2"] [] (bytes "10.0.0.3")
      (bytes "host.example.com.") [bytes "host."] (by decide) (by decide) (by decide)⟩,
   ⟨by decide,
    (fromLookup_fallback dnsDown (bytes "myhost") [] (some (Err.sys 1)) (by decide)
      (Or.inl (by decide))).1 [] (Err.sys 1) (by decide)⟩,
   ⟨by decide,
    (fromLookup_fallback { dnsDown with lookupIP := fun _ => ([], none) } (bytes "myhost") []
      (some (Err.sys 1)) (by decide) (Or.inl (by decide))).2.2 [] (by decide) (by decide)⟩⟩

/-- C14: on every return path of `fromLookup` the returned name is the name
left by the lookup steps less one trailing `.`: a name ending with `.` loses
exactly that last byte, any other name (the empty one included) is returned
unchanged; `host.example.com.` gives `host.example.com` and `a..` gives
`a.`. -/
theorem fromLookup_less_dot (dns : Dns) (host : Str) :
    fromLookup dns host = (lessDot (lookupSteps dns host).1, (lookupSteps dns host).2) ∧
    (∀ l : Str, stripDot (l ++ [46]) = l) ∧
    (∀ n : Str, n.getLast? ≠ some 46 → stripDot n = n) ∧
    stripDot (bytes "host.example.com.") = bytes "host.example.com" ∧
    stripDot (bytes "host.example.com") = bytes "host.example.com" ∧
    stripDot (bytes "a..") = bytes "a." ∧
    stripDot [] = [] := by
  refine ⟨?_, ?_, ?_, by decide, by decide, by decide, by decide⟩
  · rw [fromLookup_eq, stripDot_eq_lessDot]
  · intro l
    rw [stripDot_eq_lessDot, lessDot, List.getLast?_concat, if_pos rfl, List.dropLast_concat]
  · intro n hn
    rw [stripDot_eq_lessDot, lessDot, if_neg hn]

/-- C14, on resolvers: the reverse name `host.example.com.` is returned as
`host.example.com`, and a name without trailing dot is returned as it is. -/
theorem fromLookup_less_dot_witness :
    (lookupSteps dnsReverse (bytes "myhost")).1 = bytes "host.example.com." ∧
    fromLookup dnsReverse (bytes "myhost") = (bytes "host.example.com", none) ∧
    (bytes "host").getLast? ≠ some 46 ∧
    stripDot (bytes "host") = bytes "host" :=
  ⟨by decide,
   (fromLookup_less_dot dnsReverse (bytes "myhost")).1.trans (by decide),
   by decide,
   (fromLookup_less_dot dnsReverse (bytes "myhost")).2.2.1 (bytes "host") (by decide)⟩

theorem matched_valid (host line c : Str) (h : matched host line = some c) :
    isValidHostname c = true := by
  rw [matched_eq] at h
  by_cases hv : (verdict host (tokens line)).2 = true
  · rw [if_pos hv] at h
    have hc : (verdict host (tokens line)).1 = c := by simpa using h
    have hpair : verdict host (tokens line) = (c, true) := by
      rw [← hc, ← hv]
    obtain ⟨_, _, _, hvalid, _⟩ := verdict_true host c _ hpair
    exact hvalid
  · rw [if_neg hv] at h
    cases h

theorem fromHosts_nil_error_valid (host c : Str) (file : Except Err HostsFile)
    (h : fromHosts host file = Exec.ret (c, none)) : isValidHostname c = true := by
  cases file with
  | error e => simp [fromHosts] at h
  | ok f =>
    simp only [fromHosts] at h
    rw [hostsLoop_eq] at h
    cases hm : f.lines.findSome? (matched host) with
    | none => rw [hm] at h; simp at h
    | some c' =>
      rw [hm] at h
      simp only [Exec.ret.injEq, Prod.mk.injEq, and_true] at h
      subst h
      obtain ⟨line, _, hl⟩ := List.exists_of_findSome?_eq_some hm
      exact matched_valid host line c' hl

/-- C15 as stated fails on the DNS path: with the hostname `myhost`, a hosts
file without a line for it (or one that cannot be opened) and a resolver
whose canonical-name answer is `bad_name.example.com.`, `FqdnHostname`
returns `bad_name.example.com` with a nil error, and that name does not
satisfy `isValidHostname`. -/
theorem FqdnHostname_valid_counterexample :
    FqdnHostname (bytes "myhost", none)
        (Except.ok ⟨[bytes "127.0.0.1 localhost"], Err.eof⟩) dnsUnderscore
      = Exec.ret (bytes "bad_name.example.com", none) ∧
    FqdnHostname (bytes "myhost", none) (Except.error (Err.sys 2)) dnsUnderscore
      = Exec.ret (bytes "bad_name.example.com", none) ∧
    isValidHostname (bytes "bad_name.example.com") = false := by
  decide

/-- C15, amended: when `FqdnHostname` returns the name `c` with a nil error,
the hostname lookup succeeded and either `c` came from the hosts file
(`fromHosts` returned it with a nil error) and satisfies `isValidHostname`, or
`fromHosts` returned an error and `c` is the name that `fromLookup` returned
with a nil error. -/
theorem FqdnHostname_nil_error (hostname : Str × Option Err) (file : Except Err HostsFile)
    (dns : Dns) (c : Str) (h : FqdnHostname hostname file dns = Exec.ret (c, none)) :
    hostname.2 = none ∧
    ((fromHosts hostname.1 file = Exec.ret (c, none) ∧ isValidHostname c = true) ∨
     ((∃ n e, fromHosts hostname.1 file = Exec.ret (n, some e)) ∧
       fromLookup dns hostname.1 = (c, none))) := by
  rcases hostname with ⟨host, herr⟩
  cases herr with
  | some e => simp [FqdnHostname] at h
  | none =>
    refine ⟨rfl, ?_⟩
    simp only [FqdnHostname] at h
    rcases hf : fromHosts host file with ⟨n, e⟩ | _ | _
    · rw [hf] at h
      cases e with
      | none =>
        simp only [Exec.ret.injEq, Prod.mk.injEq, and_true] at h
        subst h
        exact Or.inl ⟨rfl, fromHosts_nil_error_valid host n file hf⟩
      | some e =>
        simp only [Exec.ret.injEq] at h
        exact Or.inr ⟨⟨n, e, rfl⟩, h⟩
    · rw [hf] at h; cases h
    · rw [hf] at h; cases h

/-- C15, amended, on the hosts line `10.0.0.5  myhost.example.com  myhost`
(the name comes from the hosts file and is valid) and on a hosts file without
a line for `myhost` (the name comes from the resolver). -/
theorem FqdnHostname_nil_error_witness :
    (FqdnHostname (bytes "myhost", none)
        (Except.ok ⟨[bytes "10.0.0.5  myhost.example.com  myhost"], Err.eof⟩) dnsUnderscore
        = Exec.ret (bytes "myhost.example.com", none) ∧
      isValidHostname (bytes "myhost.example.com") = true) ∧
    (FqdnHostname (bytes "myhost", none)
        (Except.ok ⟨[bytes "127.0.0.1 localhost"], Err.eof⟩) dnsUnderscore
        = Exec.ret (bytes "bad_name.example.com", none) ∧
      fromLookup dnsUnderscore (bytes "myhost") = (bytes "bad_name.example.com", none)) :=
  ⟨⟨by decide,
    ((FqdnHostname_nil_error (bytes "myhost", none)
      (Except.ok ⟨[bytes "10.0.0.5  myhost.example.com  myhost"], Err.eof⟩) dnsUnderscore
      (bytes "myhost.example.com") (by decide)).2.elim (fun h => h.2)
      (fun h => absurd h.2 (by decide)))⟩,
   ⟨by decide,
    ((FqdnHostname_nil_error (bytes "myhost", none)
      (Except.ok ⟨[bytes "127.0.0.1 localhost"], Err.eof⟩) dnsUnderscore
      (bytes "bad_name.example.com") (by decide)).2.elim
      (fun h => absurd h.2 (by decide)) (fun h => h.2))⟩⟩

/-! ## Lookahead and the `#` of `parseHostLine` -/

theorem cutAfterWhite_none (p : Str) (h : p.any isWhite = false) : cutAfterWhite p = [] := by
  cases p with
  | nil => rfl
  | cons b rest => rw [cutAfterWhite, h]; rfl

theorem tokensFrom_hash_cut :
    ∀ (p acc s : Str), (35 : Nat) ∉ p →
      tokensFrom acc (p ++ 35 :: s) =
        if p.any isWhite then tokensFrom acc (cutAfterWhite p) else [] := by
  intro p
  induction p with
  | nil => intro acc s _; simp [tokensFrom]
  | cons b rest ih =>
    intro acc s hp
    have hb : ¬ b = 35 := fun e => hp (by simp [e])
    have hr : (35 : Nat) ∉ rest := fun e => hp (by simp [e])
    rw [List.cons_append]
    by_cases hw : isWhite b = true
    · have hany : (b :: rest).any isWhite = true := by simp [hw]
      rw [hany, if_pos rfl, cutAfterWhite, hany, if_pos rfl, tokensFrom_white acc b _ hw,
        tokensFrom_white acc b _ hw, ih [] s hr]
      by_cases hrest : rest.any isWhite = true
      · rw [hrest, if_pos rfl]
      · have hrest' : rest.any isWhite = false := by simpa using hrest
        rw [hrest', cutAfterWhite_none rest hrest']
        simp [tokensFrom]
    · have hany : (b :: rest).any isWhite = rest.any isWhite := by
        simp only [List.any_cons]
        have : isWhite b = false := by simpa using hw
        rw [this]; rfl
      have hstep : ∀ t : Str, tokensFrom acc (b :: t) = tokensFrom (acc ++ [b]) t := by
        intro t
        rw [tokensFrom]
        simp only [hb, hw, if_false, Bool.false_eq_true]
      rw [hstep, ih (acc ++ [b]) s hr, hany]
      by_cases hrest : rest.any isWhite = true
      · rw [hrest, if_pos rfl, if_pos rfl, cutAfterWhite, hany, hrest, if_pos rfl, hstep]
      · have hrest' : rest.any isWhite = false := by simpa using hrest
        rw [hrest']
        simp

theorem cutAfterWhite_split :
    ∀ p : Str, ∃ tail : Str, p = cutAfterWhite p ++ tail ∧ ∀ x ∈ tail, isWhite x = false := by
  intro p
  induction p with
  | nil => exact ⟨[], rfl, by simp⟩
  | cons b rest ih =>
    by_cases hany : (b :: rest).any isWhite = true
    · obtain ⟨tail, h1, h2⟩ := ih
      refine ⟨tail, ?_, h2⟩
      rw [cutAfterWhite, hany, if_pos rfl, List.cons_append, ← h1]
    · have hany' : (b :: rest).any isWhite = false := by simpa using hany
      refine ⟨b :: rest, ?_, ?_⟩
      · rw [cutAfterWhite, hany']; rfl
      · intro x hx
        by_contra hne
        have hxw : isWhite x = true := by simpa using hne
        have : (b :: rest).any isWhite = true := List.any_eq_true.mpr ⟨x, hx, hxw⟩
        rw [hany'] at this
        cases this

theorem cutAfterWhite_last :
    ∀ p : Str, ∀ w ∈ (cutAfterWhite p).getLast?, isWhite w = true := by
  intro p
  induction p with
  | nil => intro w hw; simp [cutAfterWhite] at hw
  | cons b rest ih =>
    intro w hw
    by_cases hany : (b :: rest).any isWhite = true
    · rw [cutAfterWhite, hany, if_pos rfl] at hw
      cases hc : cutAfterWhite rest with
      | nil =>
        rw [hc] at hw
        have hwb : w = b := by simpa using hw.symm
        subst hwb
        by_contra hnw
        have hbw : isWhite w = false := by simpa using hnw
        have hrest : rest.any isWhite = true := by
          simpa [List.any_cons, hbw] using hany
        obtain ⟨tail, h1, h2⟩ := cutAfterWhite_split rest
        rw [hc, List.nil_append] at h1
        obtain ⟨x, hx, hxw⟩ := List.any_eq_true.mp hrest
        rw [h1] at hx
        rw [h2 x hx] at hxw
        cases hxw
      | cons c cs =>
        rw [hc, List.getLast?_cons_cons] at hw
        rw [hc] at ih
        exact ih w hw
    · have hany' : (b :: rest).any isWhite = false := by simpa using hany
      rw [cutAfterWhite, hany'] at hw
      simp at hw

/-- C17: a field directly followed by `#` is never completed: for a prefix
`p` without `#`, the line `p ++ "#" ++ s` gives the result of `p` cut after
its last space or tab; the cut is a prefix of `p` whose remainder holds no
space or tab, and it is empty or ends in a space or tab. -/
theorem parseHostLine_hash_lookahead (host p s : Str) (hp : (35 : Nat) ∉ p) :
    parseHostLine host (p ++ 35 :: s) = parseHostLine host (cutAfterWhite p) ∧
    (∃ tail : Str, p = cutAfterWhite p ++ tail ∧ ∀ x ∈ tail, isWhite x = false) ∧
    (∀ w ∈ (cutAfterWhite p).getLast?, isWhite w = true) := by
  refine ⟨?_, cutAfterWhite_split p, cutAfterWhite_last p⟩
  rw [parseHostLine_eq_verdict, parseHostLine_eq_verdict, tokens, tokens,
    tokensFrom_hash_cut p [] s hp]
  by_cases hany : p.any isWhite = true
  · rw [hany, if_pos rfl]
  · have hany' : p.any isWhite = false := by simpa using hany
    rw [hany', cutAfterWhite_none p hany']
    rfl

/-- C17, on the lines `1.2.3.4 host.example.com host#x` (no match for the
host `host`: the cut is `1.2.3.4 host.example.com `) and
`1.2.3.4 host.example.com host #x` (match: the cut is the whole prefix). -/
theorem parseHostLine_hash_lookahead_witness :
    ((35 : Nat) ∉ bytes "1.2.3.4 host.example.com host" ∧
      cutAfterWhite (bytes "1.2.3.4 host.example.com host")
        = bytes "1.2.3.4 host.example.com " ∧
      parseHostLine (bytes "host") (bytes "1.2.3.4 host.example.com host" ++ 35 :: bytes "x")
        = parseHostLine (bytes "host")
            (cutAfterWhite (bytes "1.2.3.4 host.example.com host")) ∧
      parseHostLine (bytes "host") (bytes "1.2.3.4 host.example.com host#x")
        = Exec.ret ([], false)) ∧
    ((35 : Nat) ∉ bytes "1.2.3.4 host.example.com host " ∧
      cutAfterWhite (bytes "1.2.3.4 host.example.com host ")
        = bytes "1.2.3.4 host.example.com host " ∧
      parseHostLine (bytes "host") (bytes "1.2.3.4 host.example.com host " ++ 35 :: bytes "x")
        = parseHostLine (bytes "host")
            (cutAfterWhite (bytes "1.2.3.4 host.example.com host ")) ∧
      parseHostLine (bytes "host") (bytes "1.2.3.4 host.example.com host #x")
        = Exec.ret (bytes "host.example.com", true)) :=
  ⟨⟨by decide, by decide,
    (parseHostLine_hash_lookahead (bytes "host") (bytes "1.2.3.4 host.example.com host")
      (bytes "x") (by decide)).1,
    by decide⟩,
   ⟨by decide, by decide,
    (parseHostLine_hash_lookahead (bytes "host") (bytes "1.2.3.4 host.example.com host ")
      (bytes "x") (by decide)).1,
    by decide⟩⟩

/-! ## `chomp` and the line reader -/

theorem trimLast_eq (c : Nat) (s : Str) :
    (if 0 < s.length ∧ s.get? (s.length - 1) = some c then s.take (s.length - 1) else s)
      = if s.getLast? = some c then s.dropLast else s := by
  rcases List.eq_nil_or_concat s with h | ⟨l, x, h⟩
  · subst h; rfl
  · rw [List.concat_eq_append] at h
    subst h
    have h1 : (l ++ [x]).get? ((l ++ [x]).length - 1) = some x := by
      simp [List.get?_eq_getElem?]
    have h2 : (l ++ [x]).take ((l ++ [x]).length - 1) = l := by simp
    have h3 : 0 < (l ++ [x]).length := by simp
    rw [h1, h2, List.getLast?_concat, List.dropLast_concat]
    simp only [h3, true_and]

theorem chomp_eq (s : Str) :
    chomp s =
      if (if s.getLast? = some 10 then s.dropLast else s).getLast? = some 13 then
        (if s.getLast? = some 10 then s.dropLast else s).dropLast
      else (if s.getLast? = some 10 then s.dropLast else s) := by
  unfold chomp
  simp only
  rw [trimLast_eq 10 s, trimLast_eq 13]

theorem chomp_crlf (l : Str) : chomp (l ++ [13, 10]) = l := by
  have e : l ++ [13, 10] = (l ++ [13]) ++ [10] := by simp
  rw [chomp_eq, e, List.getLast?_concat, if_pos rfl, List.dropLast_concat,
    List.getLast?_concat, if_pos rfl, List.dropLast_concat]

theorem chomp_lf (l : Str) (h : l.getLast? ≠ some 13) : chomp (l ++ [10]) = l := by
  rw [chomp_eq, List.getLast?_concat, if_pos rfl, List.dropLast_concat, if_neg h]

theorem chomp_cr (l : Str) : chomp (l ++ [13]) = l := by
  have h : ¬ ((some 13 : Option Nat) = some 10) := by decide
  rw [chomp_eq, List.getLast?_concat, if_neg h, List.getLast?_concat, if_pos rfl,
    List.dropLast_concat]

theorem chomp_other (s : Str) (h10 : s.getLast? ≠ some 10) (h13 : s.getLast? ≠ some 13) :
    chomp s = s := by
  rw [chomp_eq, if_neg h10, if_neg h13]

/-- C18: `chomp` removes at most one trailing `\n`, then at most one trailing
`\r`, and nothing else: `l ++ "\r\n"` gives `l`; `l ++ "\n"` gives `l` when
`l` does not end with `\r`; `l ++ "\r"` gives `l`; a string that ends neither
with `\n` nor with `\r` is returned as it is; `bar\rbz\n` gives `bar\rbz` and
`\r` gives the empty string. -/
theorem chomp_spec :
    (∀ l : Str, chomp (l ++ [13, 10]) = l) ∧
    (∀ l : Str, l.getLast? ≠ some 13 → chomp (l ++ [10]) = l) ∧
    (∀ l : Str, chomp (l ++ [13]) = l) ∧
    (∀ s : Str, s.getLast? ≠ some 10 → s.getLast? ≠ some 13 → chomp s = s) ∧
    chomp (bytes "bar\rbz\n") = bytes "bar\rbz" ∧
    chomp [13] = [] := by
  refine ⟨?_, ?_, ?_, ?_, by decide, by decide⟩
  · intro l
    have e : l ++ [13, 10] = (l ++ [13]) ++ [10] := by simp
    rw [chomp_eq, e, List.getLast?_concat, if_pos rfl, List.dropLast_concat,
      List.getLast?_concat, if_pos rfl, List.dropLast_concat]
  · intro l h
    rw [chomp_eq, List.getLast?_concat, if_pos rfl, List.dropLast_concat, if_neg h]
  · intro l
    have h : ¬ ((some 13 : Option Nat) = some 10) := by decide
    rw [chomp_eq, List.getLast?_concat, if_neg h, List.getLast?_concat, if_pos rfl,
      List.dropLast_concat]
  · intro s h10 h13
    rw [chomp_eq, if_neg h10, if_neg h13]

/-- C18, on `foo\n` (the line `foo` does not end with `\r`) and on `foo`
(ending neither with `\n` nor with `\r`). -/
theorem chomp_spec_witness :
    ((bytes "foo").getLast? ≠ some 13 ∧ chomp (bytes "foo" ++ [10]) = bytes "foo") ∧
    ((bytes "foo").getLast? ≠ some 10 ∧ (bytes "foo").getLast? ≠ some 13 ∧
      chomp (bytes "foo") = bytes "foo") :=
  ⟨⟨by decide, chomp_spec.2.1 (bytes "foo") (by decide)⟩,
   ⟨by decide, by decide, chomp_spec.2.2.2.1 (bytes "foo") (by decide) (by decide)⟩⟩

theorem rawLine_lf (l rest : Str) (h : (10 : Nat) ∉ l) :
    rawLine (l ++ 10 :: rest) = l ++ [10] := by
  induction l with
  | nil => simp [rawLine]
  | cons b l' ih =>
    have hb : ¬ b = 10 := fun e => h (by simp [e])
    have hl : (10 : Nat) ∉ l' := fun e => h (by simp [e])
    rw [List.cons_append, rawLine, if_neg hb, ih hl, List.cons_append]

theorem rawLine_all (l : Str) (h : (10 : Nat) ∉ l) : rawLine l = l := by
  induction l with
  | nil => rfl
  | cons b l' ih =>
    have hb : ¬ b = 10 := fun e => h (by simp [e])
    have hl : (10 : Nat) ∉ l' := fun e => h (by simp [e])
    rw [rawLine, if_neg hb, ih hl]

theorem readline_cons (input : Str) (h : input ≠ []) :
    readline input =
      ((chomp (rawLine input), none), input.drop (rawLine input).length) := by
  cases input with
  | nil => exact absurd rfl h
  | cons b rest => rfl

theorem mem_of_getLast? (l : Str) (x : Nat) (h : l.getLast? = some x) : x ∈ l := by
  rcases List.eq_nil_or_concat l with hl | ⟨l', y, hl⟩
  · subst hl; simp at h
  · rw [List.concat_eq_append] at hl
    subst hl
    rw [List.getLast?_concat] at h
    have : y = x := by simpa using h
    subst this
    simp

theorem readline_terminated (l : Str) (crlf : Bool) (rest : Str)
    (h10 : (10 : Nat) ∉ l) (h13 : (13 : Nat) ∉ l) :
    readline (terminated l crlf ++ rest) = ((l, none), rest) := by
  have hlast : l.getLast? ≠ some 13 := fun e => h13 (mem_of_getLast? l 13 e)
  cases crlf with
  | false =>
    have e1 : terminated l false ++ rest = l ++ 10 :: rest := by simp [terminated]
    have e2 : l ++ 10 :: rest = (l ++ [10]) ++ rest := by simp
    rw [e1, readline_cons _ (by simp), rawLine_lf l rest h10, chomp_lf l hlast]
    nth_rewrite 1 [e2]
    rw [List.drop_left]
  | true =>
    have e1 : terminated l true ++ rest = (l ++ [13]) ++ 10 :: rest := by simp [terminated]
    have e2 : (l ++ [13]) ++ 10 :: rest = ((l ++ [13]) ++ [10]) ++ rest := by simp
    have h10' : (10 : Nat) ∉ l ++ [13] := by
      intro hm
      rcases List.mem_append.mp hm with hm | hm
      · exact h10 hm
      · simp at hm
    have e3 : (l ++ [13]) ++ [10] = l ++ [13, 10] := by simp
    rw [e1, readline_cons _ (by simp), rawLine_lf (l ++ [13]) rest h10', e3, chomp_crlf l,
      ← e3]
    nth_rewrite 1 [e2]
    rw [List.drop_left]

theorem readLines_join :
    ∀ ls : List (Str × Bool), (∀ p ∈ ls, (10 : Nat) ∉ p.1 ∧ (13 : Nat) ∉ p.1) →
      ∀ (m : Nat) (t : Str), readLines (ls.length + m) (joinLines ls ++ t) =
        (readLines m t).map (fun f => ⟨ls.map Prod.fst ++ f.lines, f.final⟩) := by
  intro ls
  induction ls with
  | nil =>
    intro _ m t
    simp only [List.length_nil, Nat.zero_add, joinLines, List.nil_append, List.map_nil]
    cases readLines m t <;> rfl
  | cons p ls' ih =>
    intro h m t
    obtain ⟨l, crlf⟩ := p
    have hp := h (l, crlf) (by simp)
    have hrest := ih (fun q hq => h q (by simp [hq])) m t
    have hfuel : (((l, crlf) :: ls').length + m) = (ls'.length + m) + 1 := by
      simp only [List.length_cons]; omega
    rw [hfuel, readLines, joinLines, List.append_assoc,
      readline_terminated l crlf _ hp.1 hp.2]
    simp only
    rw [hrest, Option.map_map]
    rfl

theorem joinLines_length (ls : List (Str × Bool)) : ls.length ≤ (joinLines ls).length := by
  induction ls with
  | nil => simp
  | cons p ls' ih =>
    obtain ⟨l, crlf⟩ := p
    simp only [joinLines, terminated, List.length_cons, List.length_append]
    cases crlf <;> simp <;> omega

theorem readLines_end (m : Nat) (h : 1 ≤ m) : readLines m [] = some ⟨[], Err.eof⟩ := by
  cases m with
  | zero => omega
  | succ k => rfl

theorem readLines_fragment (m : Nat) (h : 2 ≤ m) (l : Str) (hne : l ≠ [])
    (h10 : (10 : Nat) ∉ l) (h13 : (13 : Nat) ∉ l) :
    readLines m l = some ⟨[l], Err.eof⟩ := by
  obtain ⟨k, rfl⟩ : ∃ k, m = k + 1 := ⟨m - 1, by omega⟩
  have hl10 : l.getLast? ≠ some 10 := fun e => h10 (mem_of_getLast? l 10 e)
  have hl13 : l.getLast? ≠ some 13 := fun e => h13 (mem_of_getLast? l 13 e)
  rw [readLines, readline_cons l hne, rawLine_all l h10, chomp_other l hl10 hl13,
    List.drop_length]
  simp only
  rw [readLines_end k (by omega)]
  rfl

/-- The model of the line reader passes the cases of `TestReadline` and
`TestReadlineWin`. -/
theorem readFile_tests :
    readFile (bytes "foo\nbar\nbaz\n")
      = some ⟨[bytes "foo", bytes "bar", bytes "baz"], Err.eof⟩ ∧
    readFile (bytes "foo\nbar\nbaz")
      = some ⟨[bytes "foo", bytes "bar", bytes "baz"], Err.eof⟩ ∧
    readFile (bytes "foo\nbar\nbaz\n\n")
      = some ⟨[bytes "foo", bytes "bar", bytes "baz", []], Err.eof⟩ ∧
    readFile (bytes "foo\nbar\nbaz\n\nx")
      = some ⟨[bytes "foo", bytes "bar", bytes "baz", [], bytes "x"], Err.eof⟩ ∧
    readFile (bytes "foo\r\nbar\r\nbaz\r\n")
      = some ⟨[bytes "foo", bytes "bar", bytes "baz"], Err.eof⟩ ∧
    readFile (bytes "foo\r\nbar\r\nbaz")
      = some ⟨[bytes "foo", bytes "bar", bytes "baz"], Err.eof⟩ ∧
    readFile (bytes "foo\r\nbar\r\nbz\r\n\r\n")
      = some ⟨[bytes "foo", bytes "bar", bytes "bz", []], Err.eof⟩ ∧
    readFile (bytes "foo\nbar\rbz\n\r")
      = some ⟨[bytes "foo", bytes "bar\rbz", []], Err.eof⟩ ∧
    readFile (bytes "foo\nbar\r\nbz\r\n\n")
      = some ⟨[bytes "foo", bytes "bar", bytes "bz", []], Err.eof⟩ := by
  decide

/-- C16: for lines `l1 … ln` that contain neither `\n` nor `\r`, each followed
by `\n` or `\r\n`, the line reader delivers exactly `l1, …, ln` and then
`io.EOF`; and when the last line is not empty, the same input without the
last terminator delivers the same lines and then `io.EOF`. -/
theorem readFile_lines (ls : List (Str × Bool))
    (h : ∀ p ∈ ls, (10 : Nat) ∉ p.1 ∧ (13 : Nat) ∉ p.1) :
    readFile (joinLines ls) = some ⟨ls.map Prod.fst, Err.eof⟩ ∧
    ∀ (pre : List (Str × Bool)) (l : Str) (crlf : Bool), ls = pre ++ [(l, crlf)] → l ≠ [] →
      readFile (joinLines pre ++ l) = some ⟨ls.map Prod.fst, Err.eof⟩ := by
  constructor
  · have hlen := joinLines_length ls
    have hfuel : (joinLines ls).length + 1 = ls.length + ((joinLines ls).length + 1 - ls.length) := by
      omega
    have := readLines_join ls h ((joinLines ls).length + 1 - ls.length) []
    rw [List.append_nil] at this
    rw [readFile, hfuel, this, readLines_end _ (by omega)]
    simp
  · intro pre l crlf hls hne
    subst hls
    have hpre : ∀ p ∈ pre, (10 : Nat) ∉ p.1 ∧ (13 : Nat) ∉ p.1 :=
      fun p hp => h p (by simp [hp])
    have hl := h (l, crlf) (by simp)
    have hlen := joinLines_length pre
    have hlpos : 0 < l.length := List.length_pos.mpr hne
    have hfuel : (joinLines pre ++ l).length + 1
        = pre.length + ((joinLines pre).length + l.length + 1 - pre.length) := by
      simp only [List.length_append]; omega
    rw [readFile, hfuel, readLines_join pre hpre _ l,
      readLines_fragment _ (by omega) l hne hl.1 hl.2]
    simp

/-- C16, on the inputs of the tests: `foo\nbar\nbaz\n` and `foo\nbar\nbaz`
give `foo`, `bar`, `baz`; `foo\nbar\nbaz\n\n` gives a fourth, empty line;
`foo\r\nbar\r\nbaz\r\n` gives `foo`, `bar`, `baz`. -/
theorem readFile_lines_witness :
    ((∀ p ∈ [(bytes "foo", false), (bytes "bar", false), (bytes "baz", false)],
        (10 : Nat) ∉ p.1 ∧ (13 : Nat) ∉ p.1) ∧
      joinLines [(bytes "foo", false), (bytes "bar", false), (bytes "baz", false)]
        = bytes "foo\nbar\nbaz\n" ∧
      readFile (bytes "foo\nbar\nbaz\n")
        = some ⟨[bytes "foo", bytes "bar", bytes "baz"], Err.eof⟩ ∧
      readFile (bytes "foo\nbar\nbaz")
        = some ⟨[bytes "foo", bytes "bar", bytes "baz"], Err.eof⟩) ∧
    readFile (joinLines
        [(bytes "foo", false), (bytes "bar", false), (bytes "baz", false), ([], false)])
      = some ⟨[bytes "foo", bytes "bar", bytes "baz", []], Err.eof⟩ ∧
    readFile (joinLines [(bytes "foo", true), (bytes "bar", true), (bytes "baz", true)])
      = some ⟨[bytes "foo", bytes "bar", bytes "baz"], Err.eof⟩ ∧
    joinLines [(bytes "foo", false), (bytes "bar", false), (bytes "baz", false), ([], false)]
      = bytes "foo\nbar\nbaz\n\n" ∧
    joinLines [(bytes "foo", true), (bytes "bar", true), (bytes "baz", true)]
      = bytes "foo\r\nbar\r\nbaz\r\n" :=
  ⟨⟨by decide, by decide,
    (readFile_lines [(bytes "foo", false), (bytes "bar", false), (bytes "baz", false)]
      (by decide)).1,
    (readFile_lines [(bytes "foo", false), (bytes "bar", false), (bytes "baz", false)]
      (by decide)).2 [(bytes "foo", false), (bytes "bar", false)] (bytes "baz") false
      (by decide) (by decide)⟩,
   (readFile_lines
      [(bytes "foo", false), (bytes "bar", false), (bytes "baz", false), ([], false)]
      (by decide)).1,
   (readFile_lines [(bytes "foo", true), (bytes "bar", true), (bytes "baz", true)]
      (by decide)).1,
   by decide, by decide⟩

/-! ## Termination and absence of panics of `parseHostLine` -/

theorem run_fst (host line : Str) :
    ∀ (fuel : Nat) (v : Vars), (run host line fuel v).1 = loop host line fuel v := by
  intro fuel
  induction fuel with
  | zero => intro v; rfl
  | succ f ih =>
    intro v
    rw [run, loop]
    by_cases hlt : v.i < (line.length : Int)
    · rw [if_pos hlt, if_pos hlt]
      cases hb : body host line v with
      | next w => exact ih _
      | brk => rfl
      | ret name ok => rfl
      | panic => rfl
    · rw [if_neg hlt, if_neg hlt]

theorem index_some (line : Str) (i : Int) (h0 : 0 ≤ i) (h1 : i < line.length) :
    ∃ b, index line i = some b := by
  have hn : i.toNat < line.length := by omega
  refine ⟨line.get ⟨i.toNat, hn⟩, ?_⟩
  rw [index, if_pos ⟨h0, h1⟩, List.get?_eq_get hn]

theorem isLast_some (line : Str) (i : Int) (h0 : 0 ≤ i) (h1 : i < line.length) :
    ∃ r, isLast line i = some r := by
  unfold isLast
  by_cases hl : i = (line.length : Int) - 1
  · exact ⟨true, by rw [if_pos hl]⟩
  · obtain ⟨b, hb⟩ := index_some line (i + 1) (by omega) (by omega)
    exact ⟨isWhite b, by rw [if_neg hl, hb]; rfl⟩

theorem partStr_some (line : Str) (v : Vars) (h0 : 0 ≤ v.start) (h1 : v.start ≤ v.i)
    (h2 : v.i < line.length) : ∃ p, partStr line v = some p := by
  unfold partStr slice
  exact ⟨_, by rw [if_pos ⟨h0, by omega, by omega⟩]⟩

theorem spent_le (st : Nat) : spent st ≤ 2 := by
  unfold spent; split_ifs <;> omega

theorem body_inv (host line : Str) (v : Vars) (hinv : Inv v) (hlt : v.i < line.length) :
    body host line v ≠ Step.panic ∧
    ∀ w, body host line v = Step.next w →
      Inv { w with i := w.i + 1 } ∧
      (w.i = v.i ∨ (w.i = v.i - 1 ∧ spent v.state < spent w.state ∧ w.state ≠ v.state ∧
         v.state ≠ StateIp ∧ v.state ≠ StateCanon ∧ v.state ≠ StateAlias)) := by
  obtain ⟨h0, hst, hns, hstart⟩ := hinv
  obtain ⟨b, hb⟩ := index_some line v.i h0 hlt
  obtain ⟨r, hr⟩ := isLast_some line v.i h0 hlt
  by_cases h35 : b = 35
  · have hbody : body host line v = Step.brk := by simp [body, hb, h35]
    rw [hbody]
    exact ⟨by simp, fun w hw => by cases hw⟩
  · have hcases : v.state = 0 ∨ v.state = 1 ∨ v.state = 2 ∨ v.state = 3 ∨ v.state = 4 ∨
        v.state = 5 := by omega
    rcases hcases with hs | hs | hs | hs | hs | hs
    · -- StateSkipWhite
      by_cases hw : isWhite b = true
      · have hbody : body host line v = Step.next v := by
          simp [body, hb, h35, hs, StateSkipWhite, hw]
        rw [hbody]
        refine ⟨by simp, fun w hw' => ?_⟩
        injection hw' with hw'
        subst hw'
        refine ⟨⟨by simp; omega, hst, hns, ?_⟩, Or.inl rfl⟩
        intro h
        simp [hs, StateCanon, StateAlias] at h
      · have hbody : body host line v =
            Step.next { v with state := v.nextState, i := v.i - 1 } := by
          simp [body, hb, h35, hs, StateSkipWhite, hw]
        rw [hbody]
        refine ⟨by simp, fun w hw' => ?_⟩
        injection hw' with hw'
        subst hw'
        have hn := hns (by rw [hs]; rfl)
        refine ⟨⟨by simp; omega, ?_, ?_, ?_⟩, Or.inr ⟨rfl, ?_, ?_, ?_, ?_, ?_⟩⟩ <;>
          rcases hn with hn | hn | hn <;>
          simp [hn, hs, spent, StateIp, StateCanonFirst, StateAliasFirst, StateSkipWhite,
            StateCanon, StateAlias]
    · -- StateIp
      cases r with
      | true =>
        have hbody : body host line v = Step.next
            { v with state := StateSkipWhite, nextState := StateCanonFirst } := by
          simp [body, hb, h35, hs, hr, StateSkipWhite, StateIp]
        rw [hbody]
        refine ⟨by simp, fun w hw' => ?_⟩
        injection hw' with hw'
        subst hw'
        refine ⟨⟨by simp; omega, by simp [StateSkipWhite], fun _ => Or.inr (Or.inl rfl), ?_⟩,
          Or.inl rfl⟩
        intro h
        simp [StateSkipWhite, StateCanon, StateAlias] at h
      | false =>
        have hbody : body host line v = Step.next v := by
          simp [body, hb, h35, hs, hr, StateSkipWhite, StateIp]
        rw [hbody]
        refine ⟨by simp, fun w hw' => ?_⟩
        injection hw' with hw'
        subst hw'
        refine ⟨⟨by simp; omega, hst, ?_, ?_⟩, Or.inl rfl⟩
        · intro h; simp [hs, StateSkipWhite] at h
        · intro h; simp [hs, StateCanon, StateAlias] at h
    · -- StateCanonFirst
      have hbody : body host line v = Step.next
          { v with start := v.i, state := StateCanon, i := v.i - 1 } := by
        simp [body, hb, h35, hs, StateSkipWhite, StateIp, StateCanonFirst]
      rw [hbody]
      refine ⟨by simp, fun w hw' => ?_⟩
      injection hw' with hw'
      subst hw'
      refine ⟨⟨by simp; omega, by simp [StateCanon], ?_, ?_⟩, Or.inr ⟨rfl, ?_, ?_, ?_, ?_, ?_⟩⟩
      · intro h; simp [StateSkipWhite, StateCanon] at h
      · intro _; simp; omega
      all_goals simp [hs, spent, StateIp, StateCanonFirst, StateAliasFirst, StateSkipWhite,
        StateCanon, StateAlias]
    · -- StateCanon
      obtain ⟨hs0, hs1⟩ := hstart (Or.inl (by rw [hs]; rfl))
      obtain ⟨p, hp⟩ := partStr_some line v hs0 hs1 hlt
      cases r with
      | false =>
        have hbody : body host line v = Step.next v := by
          simp [body, hb, h35, hs, hr, hp, StateSkipWhite, StateIp, StateCanonFirst, StateCanon]
        rw [hbody]
        refine ⟨by simp, fun w hw' => ?_⟩
        injection hw' with hw'
        subst hw'
        refine ⟨⟨by simp; omega, hst, ?_, ?_⟩, Or.inl rfl⟩
        · intro h; simp [hs, StateSkipWhite] at h
        · intro _; simp; omega
      | true =>
        have hbody : body host line v =
            if !(isValidHostname p) then Step.ret [] false
            else if p = host then Step.ret p true
            else Step.next { v with canon := p, state := StateSkipWhite,
                                    nextState := StateAliasFirst } := by
          simp [body, hb, h35, hs, hr, hp, StateSkipWhite, StateIp, StateCanonFirst, StateCanon]
        rw [hbody]
        refine ⟨by split_ifs <;> simp, fun w hw' => ?_⟩
        split_ifs at hw'
        injection hw' with hw'
        subst hw'
        refine ⟨⟨by simp; omega, by simp [StateSkipWhite], fun _ => Or.inr (Or.inr rfl), ?_⟩,
          Or.inl rfl⟩
        intro h
        simp [StateSkipWhite, StateCanon, StateAlias] at h
    · -- StateAliasFirst
      have hbody : body host line v = Step.next
          { v with start := v.i, state := StateAlias, i := v.i - 1 } := by
        simp [body, hb, h35, hs, StateSkipWhite, StateIp, StateCanonFirst, StateCanon,
          StateAliasFirst]
      rw [hbody]
      refine ⟨by simp, fun w hw' => ?_⟩
      injection hw' with hw'
      subst hw'
      refine ⟨⟨by simp; omega, by simp [StateAlias], ?_, ?_⟩, Or.inr ⟨rfl, ?_, ?_, ?_, ?_, ?_⟩⟩
      · intro h; simp [StateSkipWhite, StateAlias] at h
      · intro _; simp; omega
      all_goals simp [hs, spent, StateIp, StateCanonFirst, StateAliasFirst, StateSkipWhite,
        StateCanon, StateAlias]
    · -- StateAlias
      obtain ⟨hs0, hs1⟩ := hstart (Or.inr (by rw [hs]; rfl))
      obtain ⟨p, hp⟩ := partStr_some line v hs0 hs1 hlt
      cases r with
      | false =>
        have hbody : body host line v = Step.next v := by
          simp [body, hb, h35, hs, hr, hp, StateSkipWhite, StateIp, StateCanonFirst, StateCanon,
            StateAliasFirst, StateAlias]
        rw [hbody]
        refine ⟨by simp, fun w hw' => ?_⟩
        injection hw' with hw'
        subst hw'
        refine ⟨⟨by simp; omega, hst, ?_, ?_⟩, Or.inl rfl⟩
        · intro h; simp [hs, StateSkipWhite] at h
        · intro _; simp; omega
      | true =>
        have hbody : body host line v =
            if p = host then Step.ret v.canon true
            else Step.next { v with state := StateSkipWhite, nextState := StateAliasFirst } := by
          simp [body, hb, h35, hs, hr, hp, StateSkipWhite, StateIp, StateCanonFirst, StateCanon,
            StateAliasFirst, StateAlias]
        rw [hbody]
        refine ⟨by split_ifs <;> simp, fun w hw' => ?_⟩
        split_ifs at hw'
        injection hw' with hw'
        subst hw'
        refine ⟨⟨by simp; omega, by simp [StateSkipWhite], fun _ => Or.inr (Or.inr rfl), ?_⟩,
          Or.inl rfl⟩
        intro h
        simp [StateSkipWhite, StateCanon, StateAlias] at h

/-- The facts about the recorded iterations from which termination and the
absence of panics follow: every recorded state satisfies the invariant and
lies inside the line, the number of iterations is bounded by three per
remaining byte, a position is visited at most three times, and the result is
not a panic. -/
theorem run_trace (host line : Str) :
    ∀ (fuel : Nat) (v : Vars), Inv v →
      (∀ u ∈ (run host line fuel v).2, Inv u ∧ u.i < line.length ∧ v.i ≤ u.i) ∧
      ((run host line fuel v).2 = [] ∨
        (((run host line fuel v).2.length : Int) + spent v.state
          ≤ 3 * ((line.length : Int) - v.i))) ∧
      (∀ k : Int, ((run host line fuel v).2.filter (fun u => decide (u.i = k))).length
          ≤ if k = v.i then 3 - spent v.state else 3) ∧
      (run host line fuel v).1 ≠ Exec.panic := by
  intro fuel
  induction fuel with
  | zero =>
    intro v _
    refine ⟨fun u hu => by simp [run] at hu, Or.inl rfl, fun k => ?_, by simp [run]⟩
    simp only [run, List.filter_nil, List.length_nil]
    exact Nat.zero_le _
  | succ f ih =>
    intro v hinv
    have hsp := spent_le v.state
    by_cases hlt : v.i < (line.length : Int)
    · obtain ⟨hnp, hnext⟩ := body_inv host line v hinv hlt
      have hone : ∀ k : Int, (List.filter (fun u : Vars => decide (u.i = k)) [v]).length
          ≤ if k = v.i then 3 - spent v.state else 3 := by
        intro k
        have h1 : (List.filter (fun u : Vars => decide (u.i = k)) [v]).length ≤ 1 :=
          List.length_filter_le _ [v]
        split_ifs <;> omega
      cases hb : body host line v with
      | panic => exact absurd hb hnp
      | brk =>
        rw [run, if_pos hlt, hb]
        refine ⟨?_, Or.inr ?_, hone, by simp⟩
        · intro u hu
          have : u = v := by simpa using hu
          subst this
          exact ⟨hinv, hlt, le_refl _⟩
        · simp only [List.length_singleton]; push_cast; omega
      | ret name ok =>
        rw [run, if_pos hlt, hb]
        refine ⟨?_, Or.inr ?_, hone, by simp⟩
        · intro u hu
          have : u = v := by simpa using hu
          subst this
          exact ⟨hinv, hlt, le_refl _⟩
        · simp only [List.length_singleton]; push_cast; omega
      | next w =>
        obtain ⟨hinv', hmove⟩ := hnext w hb
        obtain ⟨hmem, hlen, hcount, hres⟩ := ih { w with i := w.i + 1 } hinv'
        have hsp' := spent_le w.state
        rw [run, if_pos hlt, hb]
        simp only at hmem hlen hcount hres ⊢
        have hge : v.i ≤ w.i + 1 := by
          rcases hmove with h | ⟨h, _⟩ <;> omega
        refine ⟨?_, Or.inr ?_, ?_, hres⟩
        · intro u hu
          rcases List.mem_cons.mp hu with hu | hu
          · subst hu; exact ⟨hinv, hlt, le_refl _⟩
          · obtain ⟨h1, h2, h3⟩ := hmem u hu
            exact ⟨h1, h2, by omega⟩
        · rw [List.length_cons]
          push_cast
          rcases hlen with hnil | hlen
          · rw [hnil]; simp only [List.length_nil]; push_cast; omega
          · rcases hmove with h | ⟨h, hlt', _⟩ <;> omega
        · intro k
          rw [List.filter_cons]
          by_cases hk : k = v.i
          · subst hk
            rw [if_pos (by simp), List.length_cons, if_pos rfl]
            rcases hmove with h | ⟨h, hlt', _⟩
            · have hnil : List.filter (fun u : Vars => decide (u.i = v.i))
                  (run host line f { w with i := w.i + 1 }).2 = [] := by
                rw [List.filter_eq_nil_iff]
                intro u hu
                have := (hmem u hu).2.2
                simp only [decide_eq_true_eq]
                omega
              rw [hnil]; simp only [List.length_nil]; omega
            · have hc := hcount v.i
              rw [if_pos (by omega)] at hc
              omega
          · have hne : ¬ v.i = k := fun e => hk e.symm
            rw [if_neg (by simpa using hne), if_neg hk]
            have hc := hcount k
            split_ifs at hc <;> omega
    · rw [run, if_neg hlt]
      refine ⟨fun u hu => by simp at hu, Or.inl rfl, fun k => ?_, by simp⟩
      simp only [List.filter_nil, List.length_nil]
      exact Nat.zero_le _

theorem inv_initVars : Inv initVars := by
  refine ⟨le_refl _, by decide, fun _ => Or.inl rfl, ?_⟩
  intro h
  rcases h with h | h <;> exact absurd h (by decide)

theorem loop_enough (host line : Str) (fuel : Nat) (h : 3 * line.length + 1 ≤ fuel) :
    loop host line fuel initVars = parseHostLine host line := by
  rw [parseHostLine_eq_scan]
  refine loop_eq_scan host line fuel initVars line none Phase.addr [] ?_ ?_ ?_
  · exact ⟨rfl, [], rfl, rfl, Or.inl ⟨rfl, rfl, rfl⟩⟩
  · simp only [initVars, spent, StateSkipWhite, if_true]; omega
  · omega

/-- C19: `parseHostLine` terminates on every host and line: however many
iterations are allowed, the loop body is executed at most `3 * len(line)`
times and at most three times at any one index; an iteration either leaves
the index where it is or steps it back by one, and a step back changes the
state and never happens in `StateIp`, `StateCanon` or `StateAlias`; with
`3 * len(line) + 1` or more condition tests the loop runs to its end and
`parseHostLine` returns. -/
theorem parseHostLine_terminates (host line : Str) (fuel : Nat) :
    (run host line fuel initVars).2.length ≤ 3 * line.length ∧
    (∀ k : Int,
      ((run host line fuel initVars).2.filter (fun u => decide (u.i = k))).length ≤ 3) ∧
    (∀ u ∈ (run host line fuel initVars).2, ∀ w, body host line u = Step.next w →
      w.i = u.i ∨ (w.i = u.i - 1 ∧ w.state ≠ u.state ∧ u.state ≠ StateIp ∧
        u.state ≠ StateCanon ∧ u.state ≠ StateAlias)) ∧
    (3 * line.length + 1 ≤ fuel →
      (run host line fuel initVars).1 = parseHostLine host line) ∧
    (∃ r, parseHostLine host line = Exec.ret r) := by
  obtain ⟨hmem, hlen, hcount, _⟩ := run_trace host line fuel initVars inv_initVars
  refine ⟨?_, ?_, ?_, ?_, ⟨_, parseHostLine_eq_verdict host line⟩⟩
  · rcases hlen with h | h
    · rw [h]; exact Nat.zero_le _
    · have h0 : initVars.i = 0 := rfl
      rw [h0] at h
      omega
  · intro k
    have h := hcount k
    split_ifs at h <;> omega
  · intro u hu w hw
    obtain ⟨hinv, hlt, _⟩ := hmem u hu
    rcases (body_inv host line u hinv hlt).2 w hw with ⟨_, h | ⟨h1, _, h3, h4, h5, h6⟩⟩
    · exact Or.inl h
    · exact Or.inr ⟨h1, h3, h4, h5, h6⟩
  · intro hf
    rw [run_fst, loop_enough host line fuel hf]

/-- C19, on the line ` a b` with 100 iterations allowed: seven iterations are
made, three of them at the index 3 (the first byte of the canonical name). -/
theorem parseHostLine_terminates_witness :
    3 * (bytes " a b").length + 1 ≤ 100 ∧
    (run (bytes "b") (bytes " a b") 100 initVars).1 = parseHostLine (bytes "b") (bytes " a b") ∧
    (run (bytes "b") (bytes " a b") 100 initVars).2.length = 7 ∧
    ((run (bytes "b") (bytes " a b") 100 initVars).2.filter
      (fun u => decide (u.i = 3))).length = 3 :=
  ⟨by decide,
   (parseHostLine_terminates (bytes "b") (bytes " a b") 100).2.2.2.1 (by decide),
   by decide, by decide⟩

/-- C20: `parseHostLine` never panics: at every execution of the loop body
the index `i` lies inside the line, so that `line[i]` is in bounds; the
lookahead `line[i+1]` of `isLast` is in bounds whenever `i` is not the last
index; in `StateCanon` and `StateAlias` the slice `line[start : i+1]` has
`0 <= start <= i < len(line)`; the state is one of the six declared states,
so that the default branch is not reached; and neither the loop body nor the
loop nor `parseHostLine` ends in a panic. -/
theorem parseHostLine_no_panic (host line : Str) (fuel : Nat) :
    (∀ u ∈ (run host line fuel initVars).2,
      (0 ≤ u.i ∧ u.i < line.length ∧ index line u.i ≠ none) ∧
      (u.i ≠ (line.length : Int) - 1 →
        u.i + 1 < line.length ∧ index line (u.i + 1) ≠ none) ∧
      isLast line u.i ≠ none ∧
      (u.state = StateCanon ∨ u.state = StateAlias →
        0 ≤ u.start ∧ u.start ≤ u.i ∧ partStr line u ≠ none) ∧
      (u.state = StateSkipWhite ∨ u.state = StateIp ∨ u.state = StateCanonFirst ∨
        u.state = StateCanon ∨ u.state = StateAliasFirst ∨ u.state = StateAlias) ∧
      body host line u ≠ Step.panic) ∧
    (run host line fuel initVars).1 ≠ Exec.panic ∧
    parseHostLine host line ≠ Exec.panic := by
  obtain ⟨hmem, _, _, hres⟩ := run_trace host line fuel initVars inv_initVars
  refine ⟨?_, hres, ?_⟩
  · intro u hu
    obtain ⟨hinv, hlt, _⟩ := hmem u hu
    obtain ⟨h0, hst, _, hstart⟩ := hinv
    obtain ⟨b, hb⟩ := index_some line u.i h0 hlt
    obtain ⟨r, hr⟩ := isLast_some line u.i h0 hlt
    refine ⟨⟨h0, hlt, by rw [hb]; simp⟩, ?_, by rw [hr]; simp, ?_, ?_,
      (body_inv host line u ⟨h0, hst, ‹_›, hstart⟩ hlt).1⟩
    · intro hne
      have h1 : u.i + 1 < (line.length : Int) := by omega
      obtain ⟨c, hc⟩ := index_some line (u.i + 1) (by omega) h1
      exact ⟨h1, by rw [hc]; simp⟩
    · intro hs
      obtain ⟨hs0, hs1⟩ := hstart hs
      obtain ⟨p, hp⟩ := partStr_some line u hs0 hs1 hlt
      exact ⟨hs0, hs1, by rw [hp]; simp⟩
    · simp only [StateSkipWhite, StateIp, StateCanonFirst, StateCanon, StateAliasFirst,
        StateAlias]
      omega
  · rw [parseHostLine_eq_verdict]
    simp

/-- C20, on the line `1.2.3.4 host.example.com host alias1` with 200
iterations allowed: the loop body never panics and the result is a match. -/
theorem parseHostLine_no_panic_witness :
    (∀ u ∈ (run (bytes "alias1") (bytes "1.2.3.4 host.example.com host alias1") 200
        initVars).2,
      body (bytes "alias1") (bytes "1.2.3.4 host.example.com host alias1") u ≠ Step.panic) ∧
    (run (bytes "alias1") (bytes "1.2.3.4 host.example.com host alias1") 200 initVars).1
      = Exec.ret (bytes "host.example.com", true) :=
  ⟨fun u hu => ((parseHostLine_no_panic (bytes "alias1")
      (bytes "1.2.3.4 host.example.com host alias1") 200).1 u hu).2.2.2.2.2,
   by decide⟩

end Fqdn
